import Mathlib

/-!
# Verification of the CZip Huffman codec

Shallow embedding of the CZip compressor: the frequency counter, the
index-based Huffman tree builder, the bit-path resolver with its cache, the
MSB-first bitstream packer, the decompressor, the compressed-container
parser and the directory-archive record codec, together with theorems about
the properties claimed of them.

Conventions used throughout the embedding:
* C byte buffers become `List Nat` with every element below 256.
* C `long`/`int64_t` values are modelled as `Int` where their sign is
  consulted and as `Nat` where the code only ever holds counts; multi-byte
  integer fields on the wire use the little-endian layout of the host the
  program targets.
* Bit-path strings of `'0'`/`'1'` characters become `List Bool`
  (`false` = `'0'` = left, `true` = `'1'` = right).
* Fallible functions return `Option`/small result inductives mirroring the
  C error codes that matter to the claims.
-/

namespace CZip

/-- Tagged Huffman tree node (struct `Node` in `data_types.h`): a `LEAF`
stores a frequency and the byte it represents, a `BRANCH` stores a frequency
and the indices of its two children inside the node array. -/
inductive Node where
  | leaf (frequency : Nat) (data : Nat)
  | branch (frequency : Nat) (left : Nat) (right : Nat)
deriving DecidableEq, Repr

/-- Frequency field shared by both node shapes. -/
def Node.frequency : Node → Nat
  | .leaf f _ => f
  | .branch f _ _ => f

/-- Discriminates the `type` tag of a node (`LEAF` versus `BRANCH`). -/
def Node.isLeaf : Node → Bool
  | .leaf _ _ => true
  | .branch _ _ _ => false

/-- Byte stored in a leaf; reading the union member of a branch is never done
by the code on the paths we model, so the branch case is arbitrary. -/
def Node.dataD : Node → Nat
  | .leaf _ d => d
  | .branch _ _ _ => 0

/-- Left child index of a branch; only consulted on branches. -/
def Node.leftD : Node → Nat
  | .leaf _ _ => 0
  | .branch _ l _ => l

/-- Right child index of a branch; only consulted on branches. -/
def Node.rightD : Node → Nat
  | .leaf _ _ => 0
  | .branch _ _ r => r

/-- Default node used for out-of-range array reads in the embedding. -/
def nodeD : Node := .leaf 0 0

/-- Frequency histogram (`count_frequencies` in the compressor source):
walks the data and increments one counter per byte value, starting from the
zeroed table the caller supplies. -/
def count_frequencies (data : List Nat) : Nat → Nat :=
  data.foldl (fun f b => Function.update f b (f b + 1)) (fun _ => 0)

/-- Leaf construction pass of `run_compression`: one `construct_leaf` per
byte value with a nonzero frequency, in increasing byte order. -/
def buildLeaves (freq : Nat → Nat) : List Node :=
  (List.range 256).filterMap
    (fun i => if freq i ≠ 0 then some (.leaf (freq i) i) else none)

/-- Comparison used by `compare_nodes`: order nodes by frequency. -/
def nodeLE (a b : Node) : Prop := a.frequency ≤ b.frequency

instance : DecidableRel nodeLE := fun a b => Nat.decLe a.frequency b.frequency

/-- Sorting pass (`sort_nodes`, a `qsort` by `compare_nodes`). `qsort` keeps
no particular order between equal keys; the embedding fixes one of the
permitted outcomes, an insertion sort by frequency, and none of the theorems
below depend on the order chosen between equal frequencies. -/
def sort_nodes (nodes : List Node) : List Node :=
  List.insertionSort nodeLE nodes

/-- Branch construction (`construct_branch`): the new branch records the two
child indices and the sum of the children's frequencies. -/
def construct_branch (nodes : List Node) (left_index right_index : Nat) : Node :=
  .branch ((nodes.getD left_index nodeD).frequency
            + (nodes.getD right_index nodeD).frequency)
    left_index right_index

/-- Cursor state of the `construct_tree` merge loop. The C code preallocates
the node array and tracks `last_branch` as the next free slot; here the
array grows by appending, so `nodes.length` plays the role of `last_branch`. -/
structure TreeBuildState where
  nodes : List Node
  current_leaf : Nat
  current_branch : Nat
deriving Repr

/-- Child selection step of the merge loop: take the leaf cursor when it is
still inside the leaf prefix and either no built branch remains unconsumed
or the leaf's frequency does not exceed the branch cursor's frequency;
otherwise take the branch cursor. The chosen cursor advances. -/
def pickChild (n : Nat) (s : TreeBuildState) : Nat × TreeBuildState :=
  if s.current_leaf < n ∧
      (s.current_branch = s.nodes.length ∨
        (s.nodes.getD s.current_leaf nodeD).frequency
          ≤ (s.nodes.getD s.current_branch nodeD).frequency) then
    (s.current_leaf, { s with current_leaf := s.current_leaf + 1 })
  else
    (s.current_branch, { s with current_branch := s.current_branch + 1 })

/-- Merge loop of `construct_tree`: each iteration picks two children and
appends one branch at the next free slot. -/
def construct_tree_loop (n : Nat) : Nat → TreeBuildState → TreeBuildState
  | 0, s => s
  | i + 1, s =>
    let p1 := pickChild n s
    let p2 := pickChild n p1.2
    construct_tree_loop n i
      { nodes := p2.2.nodes ++ [construct_branch p2.2.nodes p1.1 p2.1],
        current_leaf := p2.2.current_leaf,
        current_branch := p2.2.current_branch }

/-- Huffman tree construction (`construct_tree`): `none` for zero leaves,
the sole leaf for one, and otherwise `leaf_count - 1` merge iterations; the
returned index is the root (the last constructed slot). -/
def construct_tree (nodes : List Node) (leaf_count : Nat) :
    Option (List Node × Nat) :=
  if leaf_count = 0 then none
  else if leaf_count = 1 then some (nodes, 0)
  else
    let s := construct_tree_loop leaf_count (leaf_count - 1)
      ⟨nodes, 0, leaf_count⟩
    some (s.nodes, s.nodes.length - 1)

/-- Path cache (`char **cache`): one optional bit path per byte value. -/
def Cache : Type := Nat → Option (List Bool)

/-- Cache lookup (`check_cache`): the stored path when present. -/
def check_cache (sym : Nat) (cache : Cache) : Option (List Bool) :=
  cache sym

/-- Recursive bit-path search (`find_leaf`): depth-first from the given
index, left subtree before right, prepending `'0'`/`'1'` on the way out.
The C recursion is bounded by the tree structure; the embedding carries
explicit fuel, and on the child-precede-parent trees the builder produces a
fuel of `index + 1` is always sufficient. -/
def find_leaf (sym : Nat) (nodes : List Node) : Nat → Nat → Option (List Bool)
  | 0, _ => none
  | fuel + 1, i =>
    match nodes.getD i nodeD with
    | .leaf _ d => if d = sym then some [] else none
    | .branch _ l r =>
      match find_leaf sym nodes fuel l with
      | some p => some (false :: p)
      | none =>
        match find_leaf sym nodes fuel r with
        | some p => some (true :: p)
        | none => none

/-- Bit path of a symbol from the root, with the fuel the builder's trees
need; defaults to the empty path when the symbol is absent. -/
def pathOf (nodes : List Node) (root : Nat) (sym : Nat) : List Bool :=
  (find_leaf sym nodes (root + 1) root).getD []

/-- Cached lookup step used by the `compress` loop: consult the cache, fall
back to `find_leaf`, and memoize a successful search. -/
def lookupPath (sym : Nat) (nodes : List Node) (root : Nat) (cache : Cache) :
    Option (List Bool) × Cache :=
  match check_cache sym cache with
  | some p => (some p, cache)
  | none =>
    match find_leaf sym nodes (root + 1) root with
    | some p => (some p, Function.update cache sym (some p))
    | none => (none, cache)

/-- Bit packing state of the `compress` loop: the full bytes already stored
in `compressed_data`, the byte being assembled, the bits it holds so far,
and the running total of bits already flushed to the output. -/
structure PackState where
  out : List Nat
  buffer : Nat
  bit_count : Nat
  total_bits : Nat
deriving DecidableEq, Repr

/-- Initial packing state: nothing written, empty buffer. -/
def packInit : PackState := ⟨[], 0, 0, 0⟩

/-- Emission of one path bit, MSB first: a `'1'` sets bit `7 - bit_count` of
the buffer; a full buffer is flushed to `compressed_data[total_bits / 8]`,
which is always the next free byte. -/
def pushBit (s : PackState) (b : Bool) : PackState :=
  let buf := if b then s.buffer ||| (1 <<< (7 - s.bit_count)) else s.buffer
  if s.bit_count + 1 = 8 then
    ⟨s.out ++ [buf], 0, 0, s.total_bits + 8⟩
  else
    ⟨s.out, buf, s.bit_count + 1, s.total_bits⟩

/-- Emission of a whole bit path, bit by bit. -/
def pushBits (s : PackState) (bits : List Bool) : PackState :=
  bits.foldl pushBit s

/-- Final flush of `compress`: a partially filled buffer is stored and its
bits are added to the total. Returns the output bytes and the bit count. -/
def finishPack (s : PackState) : List Nat × Nat :=
  if 0 < s.bit_count then (s.out ++ [s.buffer], s.total_bits + s.bit_count)
  else (s.out, s.total_bits)

/-- Per-byte encoding loop of `compress`: resolve each byte's path through
the cache and emit its bits; a failed resolution aborts with `TREE_ERROR`
(`none` here), returning the cache as mutated so far. -/
def compress_go (nodes : List Node) (root : Nat) :
    List Nat → Cache → PackState → Option PackState × Cache
  | [], cache, s => (some s, cache)
  | b :: rest, cache, s =>
    let lp := lookupPath b nodes root cache
    match lp.1 with
    | some p => compress_go nodes root rest lp.2 (pushBits s p)
    | none => (none, lp.2)

/-- Result of `compress`: either success with the recorded bit count and the
output bytes (`none` bytes mirroring the `NULL` buffer of the empty-input
case), or the tree-traversal failure. Allocation failure is not modelled. -/
inductive CompressOut where
  | ok (data_size : Nat) (bytes : Option (List Nat))
  | tree_error
deriving DecidableEq, Repr

/-- The `compress` function: empty input succeeds immediately with a zero
bit count and a `NULL` buffer; otherwise every byte's path is emitted
MSB-first, and when no bit at all was produced (the single-leaf tree, whose
only path is empty) one zero bit per input byte is emitted instead so the
decoder can recover the symbol count from the bit length. -/
def compress (data : List Nat) (nodes : List Node) (root : Nat)
    (cache : Cache) : CompressOut × Cache :=
  if data.length = 0 then (.ok 0 none, cache)
  else
    match compress_go nodes root data cache packInit with
    | (none, cache2) => (.tree_error, cache2)
    | (some s, cache2) =>
      let fin := finishPack s
      if fin.2 = 0 then
        let fin2 := finishPack (pushBits packInit (List.replicate data.length false))
        (.ok fin2.2 (some fin2.1), cache2)
      else (.ok fin.2 (some fin.1), cache2)

/-- Encoder output assembled by `run_compression` into the `Compressed_file`
record: the node array (serialized in full, since the root is its last
element), the bit count, the packed bytes and the original length. -/
structure EncodeResult where
  tree : List Node
  data_size : Nat
  bytes : List Nat
  original_size : Nat
deriving DecidableEq, Repr

/-- Empty cache: `calloc`ed to all `NULL`. -/
def emptyCache : Cache := fun _ => none

/-- Compression pipeline of `run_compression` restricted to the codec
itself: histogram, leaves, sort, tree construction, `compress`. `none`
corresponds to the paths on which `run_compression` produces no container
(zero distinct symbols) or fails (`TREE_ERROR`). -/
def encodePipeline (data : List Nat) : Option EncodeResult :=
  let leaves := buildLeaves (count_frequencies data)
  let sorted := sort_nodes leaves
  match construct_tree sorted sorted.length with
  | none => none
  | some (nodes, root) =>
    match compress data nodes root emptyCache with
    | (.ok ds (some bytes), _) => some ⟨nodes, ds, bytes, data.length⟩
    | _ => none

/-- In-memory compressed record as consumed by `decompress` (the fields of
`Compressed_file` that it reads; `tree_size` is the node count here). -/
structure Compressed_file where
  is_dir : Bool
  original_size : Nat
  huffman_tree : List Node
  data_size : Nat
  compressed_data : List Nat
deriving DecidableEq, Repr

/-- Bit `i` of the packed stream: bit `7 - i % 8` of byte `i / 8`, exactly
the `buffer & (1 << (7 - i % 8))` test of the decoder (whose `buffer`
register always holds byte `i / 8` when consulted). -/
def bitAt (bytes : List Nat) (i : Nat) : Bool :=
  Nat.testBit (bytes.getD (i / 8) 0) (7 - i % 8)

/-- Decoding loop of `decompress`, one iteration per remaining bit: stop
once `original_size` symbols are out; with a leaf root every bit emits the
root's byte; otherwise follow the bit to the left (`0`) or right (`1`)
child and emit-and-reset on reaching a leaf. -/
def decompress_loop (t : List Node) (root orig : Nat) (bytes : List Nat)
    (rootIsLeaf : Bool) : Nat → Nat → Nat → List Nat → List Nat
  | 0, _, _, raw => raw
  | rem + 1, i, cur, raw =>
    if orig ≤ raw.length then raw
    else if rootIsLeaf then
      decompress_loop t root orig bytes rootIsLeaf rem (i + 1) cur
        (raw ++ [(t.getD root nodeD).dataD])
    else
      let cur2 := if bitAt bytes i then (t.getD cur nodeD).rightD
                  else (t.getD cur nodeD).leftD
      if (t.getD cur2 nodeD).isLeaf then
        decompress_loop t root orig bytes rootIsLeaf rem (i + 1) root
          (raw ++ [(t.getD cur2 nodeD).dataD])
      else
        decompress_loop t root orig bytes rootIsLeaf rem (i + 1) cur2 raw

/-- Failure of `decompress` (a tree with no nodes, `root_index < 0`). -/
inductive DecompressErr where
  | tree_error
deriving DecidableEq, Repr

/-- The `decompress` function: root index is the last node of the recorded
tree; rejects an empty tree and otherwise runs the bit-walking loop over
`data_size` bits. -/
def decompress (c : Compressed_file) : Except DecompressErr (List Nat) :=
  if c.huffman_tree.length = 0 then .error .tree_error
  else
    let root := c.huffman_tree.length - 1
    .ok (decompress_loop c.huffman_tree root c.original_size
      c.compressed_data ((c.huffman_tree.getD root nodeD).isLeaf)
      c.data_size 0 root [])

/-- Decoding of an encoder record with the recorded tree, bit count and
original size, as `run_decompression` sets it up. -/
def decodePipeline (r : EncodeResult) : Except DecompressErr (List Nat) :=
  decompress ⟨false, r.original_size, r.tree, r.data_size, r.bytes⟩

/-- Little-endian value of a byte list (first byte least significant). -/
def leVal (bs : List Nat) : Nat :=
  bs.foldr (fun b acc => b + 256 * acc) 0

/-- Little-endian signed 64-bit read: the wire bytes of a host `long`,
interpreted in two's complement. -/
def leLong (bs : List Nat) : Int :=
  if leVal bs < 2 ^ 63 then (leVal bs : Int) else (leVal bs : Int) - 2 ^ 64

/-- Magic identifier of the container (`{'H','U','F','F'}`). -/
def magicBytes : List Nat := [72, 85, 70, 70]

/-- Fields `read_compressed` extracts from a container buffer. `original_size`,
`tree_size` and `data_size` are the `size_t` values the C stores (the 8 wire
bytes read little-endian; a negative `long` wire value becomes its two's
complement `size_t`). The tree and packed data are kept as the slices of the
mapping their pointers designate, clamped to the mapping. -/
structure ParsedFile where
  is_dir : Bool
  original_size : Nat
  original_file : List Nat
  tree_size : Nat
  tree_bytes : List Nat
  data_size : Nat
  compressed_data : List Nat
deriving DecidableEq, Repr

/-- Parser outcome: success, `FILE_READ_ERROR` (a bounds check failed), or
`FILE_MAGIC_ERROR` (bad magic, or a negative declared name length). -/
inductive ReadResult where
  | ok (p : ParsedFile)
  | fileReadError
  | fileMagicError
deriving DecidableEq, Repr

/-- Declared name length of a container buffer: the `long` stored at offset
13 (after magic, `is_dir` and `original_size`). It is read into a local
`long`, so its sign check in the C is live — unlike the `tree_size` and
`data_size` checks below. -/
def nameLenOf (buf : List Nat) : Int := leLong ((buf.drop 13).take 8)

/-- Declared tree byte count: the 8 bytes after the name, as the value the
`size_t` field `compressed->tree_size` receives. `Compressed_file` declares
the field `size_t` (`data_types.h`), so the source's `tree_size < 0` check
compares an unsigned value against zero and is dead; a top-bit-set wire
value arrives as a huge unsigned count. -/
def treeSizeOf (buf : List Nat) : Nat :=
  leVal ((buf.drop (21 + (nameLenOf buf).toNat)).take 8)

/-- Cursor offset just past the tree. `current += tree_size` is 64-bit
pointer arithmetic, so the sum reduces modulo `2^64` (offsets are taken from
the mapping base): for a top-bit-set declared size the cursor wraps
backward. -/
def treeEndOff (buf : List Nat) : Nat :=
  (29 + (nameLenOf buf).toNat + treeSizeOf buf) % 2 ^ 64

/-- Declared bit count: the 8 bytes at the (possibly wrapped) post-tree
cursor, as the value the `size_t` field `compressed->data_size` receives.
The source's `data_size < 0` check is dead for the same reason as the tree
one. -/
def dataSizeOf (buf : List Nat) : Nat :=
  leVal ((buf.drop (treeEndOff buf)).take 8)

/-- Packed byte count, `(long)ceil(data_size / 8.0)` in the C. For any
`size_t` count the result is below `2^61`, so the cast back to `long` never
overflows; the `double` division is exact below `2^53` and for larger
declared counts the rounding moves a value that already dwarfs any real
buffer, so the exact `(data_size + 7) / 8` is used. -/
def packedLenOf (buf : List Nat) : Nat := (dataSizeOf buf + 7) / 8

/-- The buffer-parsing core of `read_compressed` (`file.c`), with pointers
modelled as offsets from the mapping base and pointer sums reduced modulo
`2^64` as 64-bit address arithmetic does. Magic is verified before anything
else is trusted; the declared name length, held in a local `long`, is
rejected when negative; the source's `tree_size < 0` and `data_size < 0`
checks compare `size_t` fields against zero, are dead, and so do not appear
here. The tree bounds check (`current + tree_size > end`) therefore wraps
for top-bit-set declared sizes: it can accept a tree size far beyond the
buffer, moving the cursor backward, and the fields that follow are then read
at the wrapped offset. Checks appear in source order; sums that follow an
already-passed bound stay far below `2^64` and are written without the
modulus. -/
def read_compressed (buf : List Nat) : ReadResult :=
  if buf.length < 4 then .fileReadError
  else if buf.take 4 ≠ magicBytes then .fileMagicError
  else if buf.length < 5 then .fileReadError
  else if buf.length < 13 then .fileReadError
  else if buf.length < 21 then .fileReadError
  else if nameLenOf buf < 0 then .fileMagicError
  else if buf.length < 21 + (nameLenOf buf).toNat then .fileReadError
  else if buf.length < 29 + (nameLenOf buf).toNat then .fileReadError
  else if buf.length < treeEndOff buf then .fileReadError
  else if buf.length < treeEndOff buf + 8 then .fileReadError
  else if buf.length < treeEndOff buf + 8 + packedLenOf buf then
    .fileReadError
  else
    .ok ⟨buf.getD 4 0 ≠ 0, leVal ((buf.drop 5).take 8),
      (buf.drop 21).take (nameLenOf buf).toNat,
      treeSizeOf buf,
      (buf.drop (29 + (nameLenOf buf).toNat)).take (treeSizeOf buf),
      dataSizeOf buf,
      (buf.drop (treeEndOff buf + 8)).take (packedLenOf buf)⟩

/-- A 45-byte container with valid magic, zero `original_size` and name
length, and the declared tree length wired as `F0 FF FF FF FF FF FF FF` —
the `size_t` value `2^64 - 16`. -/
def wrapBuf : List Nat :=
  magicBytes ++ [0] ++ List.replicate 8 0 ++ List.replicate 8 0
    ++ (240 :: List.replicate 7 255) ++ List.replicate 16 0

/-- Archived directory entry (`Directory_item`): a directory with its path
and permission bits, or a file with its path and contents (`file_size` is
the length of the contents). Paths are NUL-free byte strings. -/
inductive Directory_item where
  | dir (path : List Nat) (perms : Nat)
  | file (path : List Nat) (data : List Nat)
deriving DecidableEq, Repr

/-- Little-endian byte encoding of a value in `k` bytes. -/
def leBytes : Nat → Nat → List Nat
  | 0, _ => []
  | k + 1, n => n % 256 :: leBytes k (n / 256)

/-- Record serialization (`serialize_item`): `item_size` as an 8-byte
`int64_t`, the `is_dir` flag as one byte, then for directories the 4-byte
permissions, the path and its NUL; for files the 8-byte size, the path, its
NUL and the contents. (`convert_path` is the identity on the POSIX build.) -/
def serialize_item : Directory_item → List Nat
  | .dir path perms =>
    leBytes 8 (1 + (4 + (path.length + 1))) ++
      1 :: (leBytes 4 perms ++ (path ++ [0]))
  | .file path data =>
    leBytes 8 (1 + (8 + (path.length + 1) + data.length)) ++
      0 :: (leBytes 8 data.length ++ ((path ++ [0]) ++ data))

/-- Outcome of `deserialize_item`: `0` (end of stream, fewer than 8 bytes
remain), `FILE_READ_ERROR` (declared record length exceeds the remaining
bytes), or the item with the number of bytes consumed. -/
inductive DeserResult where
  | stop
  | fileReadError
  | ok (item : Directory_item) (consumed : Nat)
deriving DecidableEq, Repr

/-- Record parsing (`deserialize_item`) over the remaining bytes of the
stream: read the declared `item_size`, check it against the remaining
length, then split the payload by the flag. The stored path is read as a C
string, so its value is the bytes up to the embedded NUL. -/
def deserialize_item (buf : List Nat) : DeserResult :=
  if buf.length < 8 then .stop
  else
    let item_size := leLong (buf.take 8)
    if (buf.length : Int) < 8 + item_size then .fileReadError
    else
      let isz := item_size.toNat
      let is_dir := buf.getD 8 0 ≠ 0
      if is_dir then
        let perms := leVal ((buf.drop 9).take 4)
        let path_len := isz - 1 - 4
        let raw_path := (buf.drop 13).take path_len
        .ok (.dir (raw_path.takeWhile (fun b => b ≠ 0)) perms) (8 + isz)
      else
        let fsz := leVal ((buf.drop 9).take 8)
        let path_len := isz - 1 - 8 - fsz
        let raw_path := (buf.drop 17).take path_len
        .ok (.file (raw_path.takeWhile (fun b => b ≠ 0))
          ((buf.drop (17 + path_len)).take fsz)) (8 + isz)

/-! ## Specification-side definitions used to state and prove the claims -/

/-- Concatenation of the bit paths of a symbol sequence. -/
def catPaths (paths : Nat → List Bool) : List Nat → List Bool
  | [] => []
  | s :: rest => paths s ++ catPaths paths rest

/-- Value of a partially assembled byte whose first bit sits at position
`7 - c`: the exact `|=`-accumulation performed by `pushBit`. -/
def pendVal : Nat → List Bool → Nat
  | _, [] => 0
  | c, b :: rest => (if b then 1 <<< (7 - c) else 0) ||| pendVal (c + 1) rest

/-- MSB-first packing of a bit list into bytes, the final byte possibly
partial. -/
def packBytes (bits : List Bool) : List Nat :=
  if h : bits = [] then []
  else pendVal 0 (bits.take 8) :: packBytes (bits.drop 8)
termination_by bits.length
decreasing_by
  simp only [List.length_drop]
  have : bits.length ≠ 0 := fun hl => h (List.eq_nil_of_length_eq_zero hl)
  omega

/-- Root-to-leaf path relation: `PathTo nodes i p sym` holds when following
the bits of `p` from index `i` (with `false` = left, `true` = right) passes
only through branches and ends at a leaf carrying `sym`. -/
inductive PathTo (nodes : List Node) : Nat → List Bool → Nat → Prop where
  | leaf : ∀ i f sym, nodes.getD i nodeD = .leaf f sym → PathTo nodes i [] sym
  | left : ∀ i f l r p sym, nodes.getD i nodeD = .branch f l r →
      PathTo nodes l p sym → PathTo nodes i (false :: p) sym
  | right : ∀ i f l r p sym, nodes.getD i nodeD = .branch f l r →
      PathTo nodes r p sym → PathTo nodes i (true :: p) sym

/-- Structural invariant of the builder's arrays: every branch's children
precede it. -/
def WFTree (nodes : List Node) : Prop :=
  ∀ j f l r, nodes.getD j nodeD = .branch f l r → l < j ∧ r < j

/-- Symbols of the leaves of the subtree rooted at `i`, recursing only into
children with smaller indices (on the builder's arrays that is all of
them). -/
def subtreeSyms (nodes : List Node) (i : Nat) : List Nat :=
  match nodes.getD i nodeD with
  | .leaf _ d => [d]
  | .branch _ l r =>
    (if h : l < i then subtreeSyms nodes l else []) ++
      (if h : r < i then subtreeSyms nodes r else [])
termination_by i

/-- Symbols carried by the leaves of a node list. -/
def leafSyms (nodes : List Node) : List Nat :=
  nodes.filterMap (fun x => match x with | .leaf _ d => some d | _ => none)

/-- Loop invariant of `construct_tree_loop`, relative to the initial leaf
list `L`: cursor bounds, the consumed-count balance, preservation of the
leaf prefix, the shape of every built branch, and the fact that the
unconsumed nodes together still cover every leaf symbol. -/
structure TBInv (L : List Node) (s : TreeBuildState) : Prop where
  n_le : L.length ≤ s.nodes.length
  cl_le : s.current_leaf ≤ L.length
  cb_ge : L.length ≤ s.current_branch
  cb_le : s.current_branch ≤ s.nodes.length
  cb_lt : s.current_branch < s.nodes.length ∨ s.nodes.length = L.length
  count : s.current_leaf + s.current_branch + L.length = 2 * s.nodes.length
  prefix_eq : s.nodes.take L.length = L
  branch_struct : ∀ j, L.length ≤ j → j < s.nodes.length →
    ∃ f l r, s.nodes.getD j nodeD = .branch f l r ∧ l < j ∧ r < j ∧
      f = (s.nodes.getD l nodeD).frequency + (s.nodes.getD r nodeD).frequency
  cover : ∀ sym, sym ∈ leafSyms L → ∃ j,
    ((s.current_leaf ≤ j ∧ j < L.length) ∨
      (s.current_branch ≤ j ∧ j < s.nodes.length)) ∧
    sym ∈ subtreeSyms s.nodes j

/-- Consistency of a cache with the tree: every stored path is exactly what
`find_leaf` computes. -/
def CacheOK (nodes : List Node) (root : Nat) (cache : Cache) : Prop :=
  ∀ b p, cache b = some p → find_leaf b nodes (root + 1) root = some p

/-- Well-formedness of a directory item as produced by the walker: the path
is a NUL-free C string and the sizes fit the signed 64-bit record length. -/
def ItemValid : Directory_item → Prop
  | .dir path perms => 0 ∉ path ∧ perms < 2 ^ 32 ∧ path.length + 6 < 2 ^ 63
  | .file path data => 0 ∉ path ∧ path.length + data.length + 18 < 2 ^ 63

/-! ## List access helpers -/

lemma getD_append_left {α : Type} (l₁ l₂ : List α) (n : Nat) (d : α)
    (h : n < l₁.length) : (l₁ ++ l₂).getD n d = l₁.getD n d := by
  simp [List.getD_eq_getElem?_getD, List.getElem?_append_left h]

lemma getD_append_right {α : Type} (l₁ l₂ : List α) (n : Nat) (d : α)
    (h : l₁.length ≤ n) :
    (l₁ ++ l₂).getD n d = l₂.getD (n - l₁.length) d := by
  simp [List.getD_eq_getElem?_getD, List.getElem?_append_right h]

lemma getD_take_lt {α : Type} (l : List α) (m n : Nat) (d : α) (h : n < m) :
    (l.take m).getD n d = l.getD n d := by
  simp [List.getD_eq_getElem?_getD, List.getElem?_take_of_lt h]

lemma getD_drop {α : Type} (l : List α) (m n : Nat) (d : α) :
    (l.drop m).getD n d = l.getD (m + n) d := by
  simp [List.getD_eq_getElem?_getD]

/-! ## Frequency counting -/

lemma count_frequencies_foldl (data : List Nat) (f : Nat → Nat) (b : Nat) :
    (data.foldl (fun g x => Function.update g x (g x + 1)) f) b
      = f b + data.count b := by
  induction data generalizing f with
  | nil => simp
  | cons a rest ih =>
    simp only [List.foldl_cons, ih, List.count_cons]
    by_cases hab : a = b
    · subst hab; simp [Function.update]; omega
    · have hba : ¬b = a := fun h => hab h.symm
      simp [Function.update, hab, hba]

/-- The histogram counts occurrences. -/
lemma count_frequencies_eq (data : List Nat) (b : Nat) :
    count_frequencies data b = data.count b := by
  simpa using count_frequencies_foldl data (fun _ => 0) b

/-! ## Leaf construction -/

lemma mem_buildLeaves_iff (freq : Nat → Nat) (x : Node) :
    x ∈ buildLeaves freq ↔ ∃ b, b < 256 ∧ freq b ≠ 0 ∧ x = .leaf (freq b) b := by
  simp only [buildLeaves, List.mem_filterMap, List.mem_range]
  constructor
  · rintro ⟨b, hb, hx⟩
    by_cases hf : freq b ≠ 0
    · rw [if_pos hf] at hx
      exact ⟨b, hb, hf, (Option.some_inj.mp hx).symm⟩
    · rw [if_neg hf] at hx; cases hx
  · rintro ⟨b, hb, hf, rfl⟩
    exact ⟨b, hb, by rw [if_pos hf]⟩

lemma buildLeaves_isLeaf (freq : Nat → Nat) :
    ∀ x ∈ buildLeaves freq, x.isLeaf = true := by
  intro x hx
  obtain ⟨b, -, -, rfl⟩ := (mem_buildLeaves_iff freq x).mp hx
  rfl

lemma leaf_mem_buildLeaves (freq : Nat → Nat) (b : Nat) (hb : b < 256)
    (hf : freq b ≠ 0) : Node.leaf (freq b) b ∈ buildLeaves freq :=
  (mem_buildLeaves_iff freq _).mpr ⟨b, hb, hf, rfl⟩

lemma mem_leafSyms_of_leaf_mem {nodes : List Node} {f sym : Nat}
    (h : Node.leaf f sym ∈ nodes) : sym ∈ leafSyms nodes := by
  simp only [leafSyms, List.mem_filterMap]
  exact ⟨.leaf f sym, h, rfl⟩

lemma mem_leafSyms (nodes : List Node) (sym : Nat) :
    sym ∈ leafSyms nodes ↔ ∃ f, Node.leaf f sym ∈ nodes := by
  simp only [leafSyms, List.mem_filterMap]
  constructor
  · rintro ⟨x, hx, hmatch⟩
    cases x with
    | leaf f d =>
      simp only [Option.some_inj] at hmatch
      exact ⟨f, hmatch ▸ hx⟩
    | branch _ _ _ => cases hmatch
  · rintro ⟨f, hf⟩
    exact ⟨.leaf f sym, hf, rfl⟩

/-! ## Sorting -/

lemma sort_nodes_perm (nodes : List Node) : (sort_nodes nodes).Perm nodes :=
  List.perm_insertionSort nodeLE nodes

lemma sort_nodes_mem (nodes : List Node) (x : Node) :
    x ∈ sort_nodes nodes ↔ x ∈ nodes :=
  (sort_nodes_perm nodes).mem_iff

lemma sort_nodes_length (nodes : List Node) :
    (sort_nodes nodes).length = nodes.length :=
  (sort_nodes_perm nodes).length_eq

lemma sort_nodes_isLeaf (nodes : List Node)
    (h : ∀ x ∈ nodes, x.isLeaf = true) :
    ∀ x ∈ sort_nodes nodes, x.isLeaf = true :=
  fun x hx => h x ((sort_nodes_mem nodes x).mp hx)

/-! ## Bit packing -/

lemma pendVal_nil (c : Nat) : pendVal c [] = 0 := rfl

lemma pendVal_cons (c : Nat) (b : Bool) (rest : List Bool) :
    pendVal c (b :: rest)
      = (if b then 1 <<< (7 - c) else 0) ||| pendVal (c + 1) rest := rfl

lemma pendVal_snoc (p : List Bool) (c : Nat) (b : Bool) :
    pendVal c (p ++ [b])
      = pendVal c p ||| (if b then 1 <<< (7 - (c + p.length)) else 0) := by
  induction p generalizing c with
  | nil => simp [pendVal]
  | cons x rest ih =>
    simp only [List.cons_append, pendVal_cons, ih (c + 1), List.length_cons]
    rw [show c + 1 + rest.length = c + (rest.length + 1) from by omega,
      ← Nat.or_assoc]

lemma testBit_pendVal_shape (p : List Bool) (c k : Nat)
    (h : Nat.testBit (pendVal c p) k = true) :
    ∃ j, j < p.length ∧ k = 7 - (c + j) := by
  induction p generalizing c with
  | nil => simp [pendVal] at h
  | cons b rest ih =>
    rw [pendVal_cons, Nat.testBit_or] at h
    rcases Bool.or_eq_true_iff.mp h with h1 | h2
    · refine ⟨0, by simp, ?_⟩
      cases b with
      | false => simp at h1
      | true =>
        rw [if_pos rfl, Nat.one_shiftLeft, Nat.testBit_two_pow] at h1
        have := of_decide_eq_true h1
        omega
    · obtain ⟨j, hj, rfl⟩ := ih (c + 1) h2
      exact ⟨j + 1, by simp only [List.length_cons]; omega, by omega⟩

lemma testBit_pendVal (p : List Bool) (c t : Nat) (hc : c + p.length ≤ 8)
    (ht : t < p.length) :
    Nat.testBit (pendVal c p) (7 - (c + t)) = p.getD t false := by
  induction p generalizing c t with
  | nil => simp at ht
  | cons b rest ih =>
    have hc8 : c + rest.length + 1 ≤ 8 := by
      simp only [List.length_cons] at hc; omega
    rw [pendVal_cons, Nat.testBit_or]
    cases t with
    | zero =>
      have hrest : Nat.testBit (pendVal (c + 1) rest) (7 - (c + 0)) = false := by
        by_contra hcontra
        have htrue : Nat.testBit (pendVal (c + 1) rest) (7 - (c + 0)) = true :=
          Bool.not_eq_false _ ▸ eq_true_of_ne_false hcontra
        obtain ⟨j, hj, hk⟩ := testBit_pendVal_shape rest (c + 1) _ htrue
        omega
      rw [hrest]
      cases b with
      | false => simp
      | true =>
        rw [if_pos rfl, Nat.one_shiftLeft, Nat.testBit_two_pow]
        simp
    | succ t' =>
      have ht' : t' < rest.length := by
        simp only [List.length_cons] at ht; omega
      have hleft : Nat.testBit (if b then 1 <<< (7 - c) else 0)
          (7 - (c + (t' + 1))) = false := by
        cases b with
        | false => simp
        | true =>
          rw [if_pos rfl, Nat.one_shiftLeft, Nat.testBit_two_pow]
          simp only [decide_eq_false_iff_not]
          omega
      rw [hleft]
      have := ih (c + 1) t' (by omega) ht'
      simp only [Bool.false_or, List.getD_cons_succ]
      rw [show c + (t' + 1) = c + 1 + t' by omega]
      exact this

lemma packBytes_nil : packBytes [] = [] := by
  rw [packBytes]
  simp

lemma packBytes_ne_nil (bits : List Bool) (h : bits ≠ []) :
    packBytes bits = pendVal 0 (bits.take 8) :: packBytes (bits.drop 8) := by
  rw [packBytes]
  simp [h]

lemma pushBits_append (s : PackState) (p q : List Bool) :
    pushBits (pushBits s p) q = pushBits s (p ++ q) := by
  simp [pushBits]

/-- Closed form of the packing loop followed by the final flush. -/
lemma pushBits_finish (bits : List Bool) :
    ∀ (out : List Nat) (pend : List Bool), pend.length < 8 →
    finishPack (pushBits ⟨out, pendVal 0 pend, pend.length, 8 * out.length⟩ bits)
      = (out ++ packBytes (pend ++ bits),
          8 * out.length + pend.length + bits.length) := by
  induction bits with
  | nil =>
    intro out pend hp
    simp only [pushBits, List.foldl_nil, finishPack, List.append_nil]
    by_cases h0 : pend = []
    · subst h0
      simp [packBytes_nil, pendVal_nil]
    · have hlen : 0 < pend.length := List.length_pos.mpr h0
      rw [if_pos hlen, packBytes_ne_nil pend h0]
      have htake : pend.take 8 = pend := List.take_of_length_le (by omega)
      have hdrop : pend.drop 8 = [] := List.drop_eq_nil_of_le (by omega)
      rw [htake, hdrop, packBytes_nil]
      simp
  | cons b rest ih =>
    intro out pend hp
    have hstep : pushBit ⟨out, pendVal 0 pend, pend.length, 8 * out.length⟩ b
        = if pend.length + 1 = 8 then
            ⟨out ++ [pendVal 0 (pend ++ [b])], 0, 0, 8 * out.length + 8⟩
          else
            ⟨out, pendVal 0 (pend ++ [b]), pend.length + 1, 8 * out.length⟩ := by
      simp only [pushBit, pendVal_snoc, Nat.zero_add]
      cases b with
      | false => simp
      | true => simp
    simp only [pushBits, List.foldl_cons] at *
    rw [hstep]
    by_cases h8 : pend.length + 1 = 8
    · rw [if_pos h8]
      rw [show (⟨out ++ [pendVal 0 (pend ++ [b])], 0, 0,
            8 * out.length + 8⟩ : PackState)
          = ⟨out ++ [pendVal 0 (pend ++ [b])], pendVal 0 [],
            ([] : List Bool).length,
            8 * (out ++ [pendVal 0 (pend ++ [b])]).length⟩ by
        simp only [List.length_nil, List.length_append, List.length_cons,
          pendVal_nil, PackState.mk.injEq]
        refine ⟨trivial, trivial, trivial, by omega⟩]
      rw [ih (out ++ [pendVal 0 (pend ++ [b])]) [] (by simp)]
      have hpb : (pend ++ b :: rest) ≠ [] := by simp
      rw [packBytes_ne_nil _ hpb]
      have hlen1 : (pend ++ [b]).length = 8 := by simp; omega
      have hsplit : pend ++ b :: rest = (pend ++ [b]) ++ rest := by simp
      have htake : (pend ++ b :: rest).take 8 = pend ++ [b] := by
        rw [hsplit]; exact List.take_left' hlen1
      have hdrop : (pend ++ b :: rest).drop 8 = rest := by
        rw [hsplit]; exact List.drop_left' hlen1
      rw [htake, hdrop]
      simp only [List.nil_append, List.append_assoc, List.singleton_append,
        List.length_append, List.length_cons, List.length_nil, Prod.mk.injEq]
      refine ⟨trivial, ?_⟩
      omega
    · rw [if_neg h8]
      rw [show (⟨out, pendVal 0 (pend ++ [b]), pend.length + 1,
            8 * out.length⟩ : PackState)
          = ⟨out, pendVal 0 (pend ++ [b]), (pend ++ [b]).length,
            8 * out.length⟩ by simp]
      rw [ih out (pend ++ [b]) (by simp; omega)]
      simp only [List.append_assoc, List.singleton_append,
        List.length_append, List.length_cons, List.length_nil, Prod.mk.injEq]
      refine ⟨trivial, ?_⟩
      omega

/-- The bit the decoder extracts at position `i` is bit `i` of the packed
stream. -/
lemma bitAt_packBytes : ∀ (i : Nat) (bits : List Bool), i < bits.length →
    bitAt (packBytes bits) i = bits.getD i false := by
  intro i
  induction i using Nat.strong_induction_on with
  | _ i ih =>
    intro bits hlt
    have hne : bits ≠ [] := by
      intro h; subst h; simp at hlt
    rw [packBytes_ne_nil bits hne]
    by_cases h8 : i < 8
    · have hdiv : i / 8 = 0 := Nat.div_eq_of_lt h8
      have hmod : i % 8 = i := Nat.mod_eq_of_lt h8
      rw [bitAt, hdiv, hmod, List.getD_cons_zero]
      have htlen : i < (bits.take 8).length := by
        simp only [List.length_take]
        omega
      have := testBit_pendVal (bits.take 8) 0 i
        (by simp only [List.length_take, Nat.zero_add]; omega) htlen
      simp only [Nat.zero_add] at this
      rw [this, getD_take_lt bits 8 i false h8]
    · obtain ⟨j, rfl⟩ : ∃ j, i = 8 + j := ⟨i - 8, by omega⟩
      have hdiv : (8 + j) / 8 = j / 8 + 1 := by omega
      have hmod : (8 + j) % 8 = j % 8 := by omega
      rw [bitAt, hdiv, hmod, List.getD_cons_succ]
      have hj : j < (bits.drop 8).length := by
        simp only [List.length_drop]
        omega
      have := ih j (by omega) (bits.drop 8) hj
      rw [bitAt] at this
      rw [this, getD_drop]

/-- Packing all-zero bits yields all-zero bytes. -/
lemma pendVal_replicate_false (c k : Nat) :
    pendVal c (List.replicate k false) = 0 := by
  induction k generalizing c with
  | zero => rfl
  | succ k ih => simp [List.replicate_succ, pendVal_cons, ih]

lemma packBytes_replicate_false : ∀ (n : Nat),
    packBytes (List.replicate n false) = List.replicate ((n + 7) / 8) 0 := by
  intro n
  induction n using Nat.strong_induction_on with
  | _ n ih =>
    by_cases h0 : n = 0
    · subst h0; simp [packBytes_nil]
    · have hne : List.replicate n false ≠ [] := by
        intro hcontra
        have := congrArg List.length hcontra
        simp at this
        exact h0 this
      rw [packBytes_ne_nil _ hne]
      rw [List.take_replicate, List.drop_replicate, pendVal_replicate_false]
      by_cases h8 : n ≤ 8
      · have hm : n - 8 = 0 := by omega
        rw [hm]
        simp only [List.replicate_zero, packBytes_nil]
        have : (n + 7) / 8 = 1 := by omega
        rw [this]
        rfl
      · rw [ih (n - 8) (by omega)]
        have : (n + 7) / 8 = (n - 8 + 7) / 8 + 1 := by omega
        rw [this, List.replicate_succ]

/-! ## Subtree symbols and path search -/

lemma subtreeSyms_leaf {nodes : List Node} {i f d : Nat}
    (h : nodes.getD i nodeD = .leaf f d) : subtreeSyms nodes i = [d] := by
  rw [subtreeSyms, h]

lemma subtreeSyms_branch {nodes : List Node} {i f l r : Nat}
    (h : nodes.getD i nodeD = .branch f l r) (hl : l < i) (hr : r < i) :
    subtreeSyms nodes i = subtreeSyms nodes l ++ subtreeSyms nodes r := by
  rw [subtreeSyms, h]
  simp [hl, hr]

/-- Appending nodes does not change the subtree of an existing index. -/
lemma subtreeSyms_append (nodes ext : List Node) :
    ∀ i, i < nodes.length → subtreeSyms (nodes ++ ext) i = subtreeSyms nodes i := by
  intro i
  induction i using Nat.strong_induction_on with
  | _ i ih =>
    intro hi
    have hgd : (nodes ++ ext).getD i nodeD = nodes.getD i nodeD :=
      getD_append_left nodes ext i nodeD hi
    match hnode : nodes.getD i nodeD with
    | .leaf f d =>
      rw [subtreeSyms_leaf (hgd.trans hnode), subtreeSyms_leaf hnode]
    | .branch f l r =>
      rw [subtreeSyms, hgd, hnode, subtreeSyms, hnode]
      by_cases hl : l < i
      · by_cases hr : r < i
        · simp only [dif_pos hl, dif_pos hr]
          rw [ih l hl (by omega), ih r hr (by omega)]
        · simp only [dif_pos hl, dif_neg hr]
          rw [ih l hl (by omega)]
      · by_cases hr : r < i
        · simp only [dif_neg hl, dif_pos hr]
          rw [ih r hr (by omega)]
        · simp only [dif_neg hl, dif_neg hr]

lemma find_leaf_zero (sym : Nat) (nodes : List Node) (i : Nat) :
    find_leaf sym nodes 0 i = none := rfl

lemma find_leaf_succ_leaf {sym : Nat} {nodes : List Node} {fuel i f d : Nat}
    (h : nodes.getD i nodeD = .leaf f d) :
    find_leaf sym nodes (fuel + 1) i = if d = sym then some [] else none := by
  rw [find_leaf, h]

lemma find_leaf_succ_branch {sym : Nat} {nodes : List Node}
    {fuel i f l r : Nat} (h : nodes.getD i nodeD = .branch f l r) :
    find_leaf sym nodes (fuel + 1) i =
      match find_leaf sym nodes fuel l with
      | some p => some (false :: p)
      | none =>
        match find_leaf sym nodes fuel r with
        | some p => some (true :: p)
        | none => none := by
  rw [find_leaf, h]

/-- A successful `find_leaf` search returns a genuine root-to-leaf path. -/
lemma find_leaf_sound (sym : Nat) (nodes : List Node) :
    ∀ fuel i p, find_leaf sym nodes fuel i = some p → PathTo nodes i p sym := by
  intro fuel
  induction fuel with
  | zero => intro i p h; rw [find_leaf_zero] at h; cases h
  | succ fuel ih =>
    intro i p h
    match hnode : nodes.getD i nodeD with
    | .leaf f d =>
      rw [find_leaf_succ_leaf hnode] at h
      by_cases hd : d = sym
      · rw [if_pos hd] at h
        cases h
        exact PathTo.leaf i f sym (hd ▸ hnode)
      · rw [if_neg hd] at h; cases h
    | .branch f l r =>
      rw [find_leaf_succ_branch hnode] at h
      match hleft : find_leaf sym nodes fuel l with
      | some q =>
        rw [hleft] at h
        simp only [Option.some_inj] at h
        subst h
        exact PathTo.left i f l r q sym hnode (ih l q hleft)
      | none =>
        rw [hleft] at h
        match hright : find_leaf sym nodes fuel r with
        | some q =>
          rw [hright] at h
          simp only [Option.some_inj] at h
          subst h
          exact PathTo.right i f l r q sym hnode (ih r q hright)
        | none => rw [hright] at h; cases h

/-- On child-precede-parent trees any fuel above the index gives the same
search result, so the unbounded C recursion is captured by fuel `i + 1`. -/
lemma find_leaf_fuel {nodes : List Node} (hwf : WFTree nodes) (sym : Nat) :
    ∀ i f₁ f₂, i < f₁ → i < f₂ →
      find_leaf sym nodes f₁ i = find_leaf sym nodes f₂ i := by
  intro i
  induction i using Nat.strong_induction_on with
  | _ i ih =>
    intro f₁ f₂ h₁ h₂
    obtain ⟨g₁, rfl⟩ : ∃ g, f₁ = g + 1 := ⟨f₁ - 1, by omega⟩
    obtain ⟨g₂, rfl⟩ : ∃ g, f₂ = g + 1 := ⟨f₂ - 1, by omega⟩
    match hnode : nodes.getD i nodeD with
    | .leaf f d =>
      rw [find_leaf_succ_leaf hnode, find_leaf_succ_leaf hnode]
    | .branch f l r =>
      obtain ⟨hl, hr⟩ := hwf i f l r hnode
      rw [find_leaf_succ_branch hnode, find_leaf_succ_branch hnode]
      rw [ih l hl g₁ g₂ (by omega) (by omega), ih r hr g₁ g₂ (by omega) (by omega)]

/-- Every symbol of a subtree is found by `find_leaf`. -/
lemma find_leaf_complete {nodes : List Node} (hwf : WFTree nodes) (sym : Nat) :
    ∀ i, sym ∈ subtreeSyms nodes i →
      ∃ p, find_leaf sym nodes (i + 1) i = some p := by
  intro i
  induction i using Nat.strong_induction_on with
  | _ i ih =>
    intro hmem
    match hnode : nodes.getD i nodeD with
    | .leaf f d =>
      rw [subtreeSyms_leaf hnode] at hmem
      simp only [List.mem_singleton] at hmem
      subst hmem
      exact ⟨[], by rw [find_leaf_succ_leaf hnode, if_pos rfl]⟩
    | .branch f l r =>
      obtain ⟨hl, hr⟩ := hwf i f l r hnode
      rw [subtreeSyms_branch hnode hl hr, List.mem_append] at hmem
      rw [find_leaf_succ_branch hnode]
      rcases hmem with hml | hmr
      · obtain ⟨p, hp⟩ := ih l hl hml
        rw [← find_leaf_fuel hwf sym l i (l + 1) hl (by omega)] at hp
        rw [hp]
        exact ⟨false :: p, rfl⟩
      · obtain ⟨p, hp⟩ := ih r hr hmr
        rw [← find_leaf_fuel hwf sym r i (r + 1) hr (by omega)] at hp
        rw [hp]
        match hleft : find_leaf sym nodes i l with
        | some q => exact ⟨false :: q, rfl⟩
        | none => exact ⟨true :: p, rfl⟩

/-! ## Tree construction invariant -/

lemma take_append_of_le {α : Type} {l₁ l₂ : List α} {n : Nat}
    (h : n ≤ l₁.length) : (l₁ ++ l₂).take n = l₁.take n := by
  rw [List.take_append_eq_append_take, Nat.sub_eq_zero_of_le h]
  simp

lemma getD_mem {α : Type} {l : List α} {n : Nat} {d : α} (h : n < l.length) :
    l.getD n d ∈ l := by
  rw [List.getD_eq_getElem?_getD, List.getElem?_eq_getElem h]
  exact List.getElem_mem h

lemma getD_snoc_last {α : Type} (l : List α) (x d : α) :
    (l ++ [x]).getD l.length d = x := by
  rw [getD_append_right l [x] l.length d (Nat.le_refl _), Nat.sub_self]
  rfl

lemma getD_of_take_eq {L nodes : List Node} (h : nodes.take L.length = L)
    {j : Nat} (hj : j < L.length) : nodes.getD j nodeD = L.getD j nodeD := by
  rw [← h, getD_take_lt nodes L.length j nodeD hj]

/-- Case analysis of one `pickChild` step: under availability of at least
one candidate, the chosen index is a live cursor below the respective
bound, the cursor advances, and the node array is untouched. -/
lemma pickChild_spec (n : Nat) (s : TreeBuildState)
    (hcble : s.current_branch ≤ s.nodes.length)
    (havail : s.current_leaf < n ∨ s.current_branch < s.nodes.length) :
    (pickChild n s).2.nodes = s.nodes ∧
    (((pickChild n s).1 = s.current_leaf ∧ s.current_leaf < n ∧
        (pickChild n s).2.current_leaf = s.current_leaf + 1 ∧
        (pickChild n s).2.current_branch = s.current_branch) ∨
      ((pickChild n s).1 = s.current_branch ∧
        s.current_branch < s.nodes.length ∧
        (pickChild n s).2.current_leaf = s.current_leaf ∧
        (pickChild n s).2.current_branch = s.current_branch + 1)) := by
  by_cases hguard : s.current_leaf < n ∧
      (s.current_branch = s.nodes.length ∨
        (s.nodes.getD s.current_leaf nodeD).frequency
          ≤ (s.nodes.getD s.current_branch nodeD).frequency)
  · rw [pickChild, if_pos hguard]
    exact ⟨rfl, Or.inl ⟨rfl, hguard.1, rfl, rfl⟩⟩
  · rw [pickChild, if_neg hguard]
    refine ⟨rfl, Or.inr ⟨rfl, ?_, rfl, rfl⟩⟩
    by_cases hcl : s.current_leaf < n
    · by_cases hcb : s.current_branch = s.nodes.length
      · exact absurd ⟨hcl, Or.inl hcb⟩ hguard
      · omega
    · rcases havail with h | h
      · exact absurd h hcl
      · exact h

/-- One merge step preserves the invariant: the two chosen children are
replaced among the live roots by the branch just built over them. -/
lemma TBInv_step (L : List Node) (s : TreeBuildState) (inv : TBInv L s)
    (a b cl2 cb2 : Nat)
    (ha : a < s.nodes.length) (hb : b < s.nodes.length)
    (hcl2 : cl2 ≤ L.length) (hcb2l : L.length ≤ cb2)
    (hcb2 : cb2 ≤ s.nodes.length)
    (hactive : ∀ j,
      ((s.current_leaf ≤ j ∧ j < L.length) ∨
        (s.current_branch ≤ j ∧ j < s.nodes.length)) →
      j ≠ a → j ≠ b →
      ((cl2 ≤ j ∧ j < L.length) ∨ (cb2 ≤ j ∧ j < s.nodes.length)))
    (hcount : cl2 + cb2 = s.current_leaf + s.current_branch + 2) :
    TBInv L ⟨s.nodes ++ [construct_branch s.nodes a b], cl2, cb2⟩ := by
  have hlen : (s.nodes ++ [construct_branch s.nodes a b]).length
      = s.nodes.length + 1 := by simp
  have hgd_lt : ∀ j, j < s.nodes.length →
      (s.nodes ++ [construct_branch s.nodes a b]).getD j nodeD
        = s.nodes.getD j nodeD :=
    fun j hj => getD_append_left _ _ j nodeD hj
  have hgd_last : (s.nodes ++ [construct_branch s.nodes a b]).getD
      s.nodes.length nodeD = construct_branch s.nodes a b :=
    getD_snoc_last _ _ nodeD
  have hsub : ∀ j, j < s.nodes.length →
      subtreeSyms (s.nodes ++ [construct_branch s.nodes a b]) j
        = subtreeSyms s.nodes j :=
    fun j hj => subtreeSyms_append s.nodes _ j hj
  refine ⟨?_, ?_, ?_, ?_, ?_, ?_, ?_, ?_, ?_⟩ <;> dsimp only
  · rw [hlen]; exact Nat.le_succ_of_le inv.n_le
  · exact hcl2
  · exact hcb2l
  · rw [hlen]; omega
  · rw [hlen]; exact Or.inl (by omega)
  · rw [hlen]; have := inv.count; omega
  · rw [take_append_of_le inv.n_le]
    exact inv.prefix_eq
  · intro j hnj hjlen
    rw [hlen] at hjlen
    by_cases hjold : j < s.nodes.length
    · obtain ⟨f, l, r, hj, hl, hr, hf⟩ := inv.branch_struct j hnj hjold
      exact ⟨f, l, r, by rw [hgd_lt j hjold]; exact hj, hl, hr, by
        rw [hgd_lt l (by omega), hgd_lt r (by omega)]; exact hf⟩
    · have hjeq : j = s.nodes.length := by omega
      subst hjeq
      refine ⟨(s.nodes.getD a nodeD).frequency
          + (s.nodes.getD b nodeD).frequency, a, b, ?_, ha, hb, ?_⟩
      · rw [hgd_last]; rfl
      · rw [hgd_lt a ha, hgd_lt b hb]
  · intro sym hsym
    obtain ⟨j, hjact, hjmem⟩ := inv.cover sym hsym
    have hjlt : j < s.nodes.length := by
      rcases hjact with ⟨-, h⟩ | ⟨-, h⟩
      · exact Nat.lt_of_lt_of_le h inv.n_le
      · exact h
    by_cases hab : j = a ∨ j = b
    · refine ⟨s.nodes.length, Or.inr ⟨by omega, by rw [hlen]; omega⟩, ?_⟩
      have hbr : (s.nodes ++ [construct_branch s.nodes a b]).getD
          s.nodes.length nodeD
          = .branch ((s.nodes.getD a nodeD).frequency
              + (s.nodes.getD b nodeD).frequency) a b := by
        rw [hgd_last]; rfl
      rw [subtreeSyms_branch hbr ha hb, hsub a ha, hsub b hb,
        List.mem_append]
      rcases hab with rfl | rfl
      · exact Or.inl hjmem
      · exact Or.inr hjmem
    · have hja : j ≠ a := fun h => hab (Or.inl h)
      have hjb : j ≠ b := fun h => hab (Or.inr h)
      refine ⟨j, ?_, by rw [hsub j hjlt]; exact hjmem⟩
      rcases hactive j hjact hja hjb with h | h
      · exact Or.inl h
      · exact Or.inr ⟨h.1, by rw [hlen]; omega⟩

/-- The merge loop keeps the invariant and ends with a full array of
`2 * leafCount - 1` nodes. -/
lemma construct_tree_loop_spec (L : List Node) :
    ∀ (i : Nat) (s : TreeBuildState), TBInv L s →
      s.nodes.length + i + 1 = 2 * L.length →
      TBInv L (construct_tree_loop L.length i s) ∧
      (construct_tree_loop L.length i s).nodes.length = 2 * L.length - 1 := by
  intro i
  induction i with
  | zero =>
    intro s inv hsize
    have h0 : construct_tree_loop L.length 0 s = s := rfl
    rw [h0]
    exact ⟨inv, by omega⟩
  | succ i ih =>
    intro s inv hsize
    have hn1 : 1 ≤ L.length := by
      have := inv.n_le; have := inv.cl_le; have := inv.count
      omega
    have havail1 : s.current_leaf < L.length ∨
        s.current_branch < s.nodes.length := by
      have := inv.count; have := inv.cl_le; have := inv.cb_le
      have := inv.n_le
      omega
    obtain ⟨hnodes1, hcase1⟩ := pickChild_spec L.length s inv.cb_le havail1
    have havail2 : (pickChild L.length s).2.current_leaf < L.length ∨
        (pickChild L.length s).2.current_branch
          < (pickChild L.length s).2.nodes.length := by
      rw [hnodes1]
      have := inv.count; have := inv.cl_le; have := inv.cb_le
      have := inv.n_le
      rcases hcase1 with ⟨-, h1, h2, h3⟩ | ⟨-, h1, h2, h3⟩ <;> omega
    have hcble2 : (pickChild L.length s).2.current_branch
        ≤ (pickChild L.length s).2.nodes.length := by
      rw [hnodes1]
      have := inv.cb_le
      rcases hcase1 with ⟨-, h1, h2, h3⟩ | ⟨-, h1, h2, h3⟩ <;> omega
    obtain ⟨hnodes2, hcase2⟩ := pickChild_spec L.length _ hcble2 havail2
    rw [hnodes1] at hnodes2
    simp only [construct_tree_loop]
    apply ih
    · rw [hnodes2]
      apply TBInv_step L s inv
      · -- chosen child 1 in range
        rcases hcase1 with ⟨h0, h1, -, -⟩ | ⟨h0, h1, -, -⟩ <;> rw [h0]
        · exact Nat.lt_of_lt_of_le h1 inv.n_le
        · exact h1
      · -- chosen child 2 in range
        rcases hcase2 with ⟨h0, h1, -, -⟩ | ⟨h0, h1, -, -⟩ <;> rw [h0]
        · exact Nat.lt_of_lt_of_le h1 inv.n_le
        · rw [hnodes1] at h1; exact h1
      · -- new leaf cursor bound
        have := inv.cl_le
        rcases hcase1 with ⟨-, h1, h2, h3⟩ | ⟨-, h1, h2, h3⟩ <;>
          rcases hcase2 with ⟨-, g1, g2, g3⟩ | ⟨-, g1, g2, g3⟩ <;> omega
      · -- new branch cursor lower bound
        have := inv.cb_ge
        rcases hcase1 with ⟨-, h1, h2, h3⟩ | ⟨-, h1, h2, h3⟩ <;>
          rcases hcase2 with ⟨-, g1, g2, g3⟩ | ⟨-, g1, g2, g3⟩ <;> omega
      · -- new branch cursor upper bound
        have := inv.cb_le
        rcases hcase1 with ⟨-, h1, h2, h3⟩ | ⟨-, h1, h2, h3⟩ <;>
          rcases hcase2 with ⟨-, g1, g2, g3⟩ | ⟨-, g1, g2, g3⟩ <;>
          rw [hnodes1] at * <;> omega
      · -- remaining live roots stay live
        intro j hact hja hjb
        rcases hcase1 with ⟨h0, h1, h2, h3⟩ | ⟨h0, h1, h2, h3⟩ <;>
          rcases hcase2 with ⟨g0, g1, g2, g3⟩ | ⟨g0, g1, g2, g3⟩ <;>
          rw [hnodes1] at * <;> rw [h0] at hja <;> rw [g0] at hjb <;>
          omega
      · -- two candidates consumed, cursors advanced by two in total
        rcases hcase1 with ⟨-, h1, h2, h3⟩ | ⟨-, h1, h2, h3⟩ <;>
          rcases hcase2 with ⟨-, g1, g2, g3⟩ | ⟨-, g1, g2, g3⟩ <;> omega
    · rw [hnodes2]
      simp only [List.length_append, List.length_cons, List.length_nil]
      omega

/-- Full characterization of `construct_tree` on a nonempty leaf list: it
succeeds, builds `2n - 1` nodes of which the first `n` are the given leaves,
roots the tree at the last slot, keeps every branch's children strictly
before it with the frequency of their sum, and spans every leaf symbol from
the root. -/
lemma construct_tree_spec (L : List Node) (hne : L ≠ [])
    (hleaf : ∀ x ∈ L, x.isLeaf = true) :
    ∃ nodes root, construct_tree L L.length = some (nodes, root) ∧
      nodes.length = 2 * L.length - 1 ∧
      root + 1 = nodes.length ∧
      nodes.take L.length = L ∧
      WFTree nodes ∧
      (∀ j f l r, nodes.getD j nodeD = .branch f l r →
        L.length ≤ j ∧ j < nodes.length ∧
        f = (nodes.getD l nodeD).frequency + (nodes.getD r nodeD).frequency) ∧
      (∀ sym, sym ∈ leafSyms L → sym ∈ subtreeSyms nodes root) ∧
      (2 ≤ L.length → ∃ f l r, nodes.getD root nodeD = .branch f l r) := by
  have hn1 : 1 ≤ L.length := List.length_pos.mpr hne
  have hleafD : ∀ j, j < L.length → (L.getD j nodeD).isLeaf = true :=
    fun j hj => hleaf _ (getD_mem hj)
  by_cases hone : L.length = 1
  · refine ⟨L, 0, ?_, by omega, by omega, by simp, ?_, ?_, ?_, by omega⟩
    · rw [construct_tree, if_neg (by omega), if_pos hone]
    · intro j f l r hj
      by_cases hjlt : j < L.length
      · have := hleafD j hjlt
        rw [hj] at this
        cases this
      · have : L.getD j nodeD = nodeD := by
          rw [List.getD_eq_getElem?_getD, List.getElem?_eq_none (by omega)]
          rfl
        rw [this] at hj
        cases hj
    · intro j f l r hj
      by_cases hjlt : j < L.length
      · have := hleafD j hjlt
        rw [hj] at this
        cases this
      · have : L.getD j nodeD = nodeD := by
          rw [List.getD_eq_getElem?_getD, List.getElem?_eq_none (by omega)]
          rfl
        rw [this] at hj
        cases hj
    · intro sym hsym
      obtain ⟨f, hmem⟩ := (mem_leafSyms L sym).mp hsym
      obtain ⟨k, hk, hkeq⟩ := List.getElem_of_mem hmem
      have hk0 : k = 0 := by omega
      subst hk0
      have hgd : L.getD 0 nodeD = .leaf f sym := by
        rw [List.getD_eq_getElem?_getD, List.getElem?_eq_getElem hk, hkeq]
        rfl
      rw [subtreeSyms_leaf hgd]
      exact List.mem_singleton.mpr rfl
  · have hn2 : 2 ≤ L.length := by omega
    have inv0 : TBInv L ⟨L, 0, L.length⟩ := by
      refine ⟨Nat.le_refl _, Nat.zero_le _, Nat.le_refl _, Nat.le_refl _,
        Or.inr rfl, by dsimp; omega, by simp, ?_, ?_⟩
      · intro j hnj hjlen
        dsimp only at hnj hjlen
        omega
      · intro sym hsym
        obtain ⟨f, hmem⟩ := (mem_leafSyms L sym).mp hsym
        obtain ⟨k, hk, hkeq⟩ := List.getElem_of_mem hmem
        have hgd : L.getD k nodeD = .leaf f sym := by
          rw [List.getD_eq_getElem?_getD, List.getElem?_eq_getElem hk, hkeq]
          rfl
        exact ⟨k, Or.inl ⟨Nat.zero_le _, hk⟩,
          by rw [subtreeSyms_leaf hgd]; exact List.mem_singleton.mpr rfl⟩
    obtain ⟨inv, hlen⟩ := construct_tree_loop_spec L (L.length - 1)
      ⟨L, 0, L.length⟩ inv0 (by dsimp; omega)
    set s := construct_tree_loop L.length (L.length - 1) ⟨L, 0, L.length⟩
      with hs
    have hcursors : s.current_leaf = L.length ∧
        s.current_branch + 2 = 2 * L.length := by
      have h1 := inv.count
      have h2 := inv.cl_le
      have h3 := inv.cb_le
      rcases inv.cb_lt with h | h <;> omega
    have heq : construct_tree L L.length
        = some (s.nodes, s.nodes.length - 1) := by
      rw [construct_tree, if_neg (by omega), if_neg hone]
    have hbranch_pack : ∀ j f l r, s.nodes.getD j nodeD = .branch f l r →
        L.length ≤ j ∧ j < s.nodes.length ∧
        f = (s.nodes.getD l nodeD).frequency
          + (s.nodes.getD r nodeD).frequency := by
      intro j f l r hj
      by_cases hjlen : j < s.nodes.length
      · by_cases hjn : j < L.length
        · have hl := hleafD j hjn
          rw [← getD_of_take_eq inv.prefix_eq hjn, hj] at hl
          cases hl
        · obtain ⟨f', l', r', hj', -, -, hf'⟩ :=
            inv.branch_struct j (by omega) hjlen
          rw [hj] at hj'
          cases hj'
          exact ⟨by omega, hjlen, hf'⟩
      · have : s.nodes.getD j nodeD = nodeD := by
          rw [List.getD_eq_getElem?_getD, List.getElem?_eq_none (by omega)]
          rfl
        rw [this] at hj
        cases hj
    refine ⟨s.nodes, s.nodes.length - 1, heq, hlen, by omega,
      inv.prefix_eq, ?_, hbranch_pack, ?_, ?_⟩
    · intro j f l r hj
      by_cases hjlen : j < s.nodes.length
      · by_cases hjn : j < L.length
        · have hl := hleafD j hjn
          rw [← getD_of_take_eq inv.prefix_eq hjn, hj] at hl
          cases hl
        · obtain ⟨f', l', r', hj', hl', hr', -⟩ :=
            inv.branch_struct j (by omega) hjlen
          rw [hj] at hj'
          cases hj'
          exact ⟨hl', hr'⟩
      · have : s.nodes.getD j nodeD = nodeD := by
          rw [List.getD_eq_getElem?_getD, List.getElem?_eq_none (by omega)]
          rfl
        rw [this] at hj
        cases hj
    · intro sym hsym
      obtain ⟨j, hact, hmem⟩ := inv.cover sym hsym
      have : j = s.nodes.length - 1 := by
        rcases hact with ⟨h1, h2⟩ | ⟨h1, h2⟩ <;> omega
      rw [← this]
      exact hmem
    · intro _h
      obtain ⟨f, l, r, hj, -, -, -⟩ :=
        inv.branch_struct (s.nodes.length - 1) (by omega) (by omega)
      exact ⟨f, l, r, hj⟩


/-! ## Decoder loop -/

lemma decompress_loop_break (t : List Node) (root orig : Nat)
    (bytes : List Nat) (rl : Bool) :
    ∀ (rem i cur : Nat) (raw : List Nat), orig ≤ raw.length →
      decompress_loop t root orig bytes rl rem i cur raw = raw := by
  intro rem
  induction rem with
  | zero => intro i cur raw h; rfl
  | succ rem ih =>
    intro i cur raw h
    rw [decompress_loop, if_pos h]

lemma decompress_loop_succ_step (t : List Node) (root orig : Nat)
    (bytes : List Nat) (rl : Bool) (rem i cur : Nat) (raw : List Nat)
    (hdone : ¬ orig ≤ raw.length) :
    decompress_loop t root orig bytes rl (rem + 1) i cur raw
      = if rl then
          decompress_loop t root orig bytes rl rem (i + 1) cur
            (raw ++ [(t.getD root nodeD).dataD])
        else
          if (t.getD (if bitAt bytes i then (t.getD cur nodeD).rightD
              else (t.getD cur nodeD).leftD) nodeD).isLeaf then
            decompress_loop t root orig bytes rl rem (i + 1) root
              (raw ++ [(t.getD (if bitAt bytes i then (t.getD cur nodeD).rightD
                else (t.getD cur nodeD).leftD) nodeD).dataD])
          else
            decompress_loop t root orig bytes rl rem (i + 1)
              (if bitAt bytes i then (t.getD cur nodeD).rightD
                else (t.getD cur nodeD).leftD) raw := by
  rw [decompress_loop, if_neg hdone]

lemma decompress_loop_pad (t : List Node) (root orig : Nat)
    (bytes : List Nat) (rl : Bool) :
    ∀ (rem k i cur : Nat) (raw : List Nat),
      orig ≤ (decompress_loop t root orig bytes rl rem i cur raw).length →
      decompress_loop t root orig bytes rl (rem + k) i cur raw
        = decompress_loop t root orig bytes rl rem i cur raw := by
  intro rem
  induction rem with
  | zero =>
    intro k i cur raw h
    rw [Nat.zero_add]
    exact decompress_loop_break t root orig bytes rl k i cur raw h
  | succ rem ih =>
    intro k i cur raw h
    by_cases hdone : orig ≤ raw.length
    · rw [decompress_loop_break t root orig bytes rl (rem + 1 + k) i cur raw
        hdone,
        decompress_loop_break t root orig bytes rl (rem + 1) i cur raw hdone]
    · rw [decompress_loop_succ_step t root orig bytes rl rem i cur raw hdone]
        at h
      rw [show rem + 1 + k = (rem + k) + 1 from by omega,
        decompress_loop_succ_step t root orig bytes rl (rem + k) i cur raw
          hdone,
        decompress_loop_succ_step t root orig bytes rl rem i cur raw hdone]
      by_cases hrl : rl = true
      · subst hrl
        rw [if_pos rfl] at h
        rw [if_pos rfl, if_pos rfl]
        exact ih k (i + 1) cur _ h
      · have hrlf : rl = false := by
          cases rl
          · rfl
          · exact absurd rfl hrl
        subst hrlf
        rw [if_neg Bool.false_ne_true] at h
        rw [if_neg Bool.false_ne_true, if_neg Bool.false_ne_true]
        by_cases hcl : (t.getD (if bitAt bytes i then
            (t.getD cur nodeD).rightD else (t.getD cur nodeD).leftD)
            nodeD).isLeaf
        · rw [if_pos hcl] at h
          rw [if_pos hcl, if_pos hcl]
          exact ih k (i + 1) root _ h
        · rw [if_neg hcl] at h
          rw [if_neg hcl, if_neg hcl]
          exact ih k (i + 1) _ raw h

/-- With a leaf root every remaining bit emits the root symbol, until the
target count is reached. -/
lemma decompress_loop_leaf (t : List Node) (root orig : Nat)
    (bytes : List Nat) :
    ∀ (rem i cur : Nat) (raw : List Nat),
      decompress_loop t root orig bytes true rem i cur raw
        = raw ++ List.replicate (min rem (orig - raw.length))
            ((t.getD root nodeD).dataD) := by
  intro rem
  induction rem with
  | zero => intro i cur raw; simp [decompress_loop]
  | succ rem ih =>
    intro i cur raw
    rw [decompress_loop]
    by_cases hdone : orig ≤ raw.length
    · rw [if_pos hdone]
      have : orig - raw.length = 0 := by omega
      rw [this]
      simp
    · rw [if_neg hdone, if_pos rfl, ih (i + 1) cur _]
      have hlen : (raw ++ [(t.getD root nodeD).dataD]).length
          = raw.length + 1 := by simp
      rw [hlen, List.append_assoc]
      have hmin : min (rem + 1) (orig - raw.length)
          = min rem (orig - (raw.length + 1)) + 1 := by omega
      rw [hmin, List.replicate_succ]
      rfl

/-- Following one complete bit path moves the cursor from the root to the
encoded leaf, emits its symbol and resets the cursor. -/
lemma decompress_loop_walk (t : List Node) (root orig : Nat)
    (bytes : List Nat) :
    ∀ (p : List Bool) (cur sym i rem : Nat) (raw : List Nat),
    PathTo t cur p sym →
    (t.getD cur nodeD).isLeaf = false →
    raw.length < orig →
    p.length ≤ rem →
    (∀ k, k < p.length → bitAt bytes (i + k) = p.getD k false) →
    decompress_loop t root orig bytes false rem i cur raw
      = decompress_loop t root orig bytes false (rem - p.length)
          (i + p.length) root (raw ++ [sym]) := by
  intro p
  induction p with
  | nil =>
    intro cur sym i rem raw hpath hleaf hraw hrem hbits
    cases hpath with
    | leaf _ f _ heq => rw [heq] at hleaf; cases hleaf
  | cons b p ih =>
    intro cur sym i rem raw hpath hleaf hraw hrem hbits
    obtain ⟨rem', rfl⟩ : ∃ m, rem = m + 1 :=
      ⟨rem - 1, by simp only [List.length_cons] at hrem; omega⟩
    have hbit0 : bitAt bytes i = b := by
      have := hbits 0 (by simp)
      simpa using this
    rw [decompress_loop, if_neg (by omega)]
    simp only [Bool.false_eq_true, if_false]
    cases hpath with
    | left _ f l r _ _ heq hchild =>
      have hcur2 : (if bitAt bytes i then (t.getD cur nodeD).rightD
          else (t.getD cur nodeD).leftD) = l := by
        rw [hbit0, heq]
        rfl
      rw [hcur2]
      cases p with
      | nil =>
        cases hchild with
        | leaf _ f' _ heq' =>
          rw [if_pos (by rw [heq']; rfl)]
          have hdata : (t.getD l nodeD).dataD = sym := by rw [heq']; rfl
          rw [hdata]
          simp only [List.length_cons, List.length_nil]
          rfl
      | cons b' p' =>
        have hchildbr : (t.getD l nodeD).isLeaf = false := by
          cases hchild with
          | left _ f' l' r' _ _ heq' _ => rw [heq']; rfl
          | right _ f' l' r' _ _ heq' _ => rw [heq']; rfl
        rw [if_neg (by rw [hchildbr]; exact Bool.false_ne_true)]
        have := ih l sym (i + 1) rem' raw hchild hchildbr hraw
          (by simp only [List.length_cons] at hrem ⊢; omega)
          (fun k hk => by
            simp only [List.length_cons] at hk
            have := hbits (k + 1) (by simp only [List.length_cons]; omega)
            rw [show i + (k + 1) = i + 1 + k from by omega] at this
            simpa using this)
        rw [this]
        simp only [List.length_cons]
        congr 1
        · omega
        · omega
    | right _ f l r _ _ heq hchild =>
      have hcur2 : (if bitAt bytes i then (t.getD cur nodeD).rightD
          else (t.getD cur nodeD).leftD) = r := by
        rw [hbit0, heq]
        rfl
      rw [hcur2]
      cases p with
      | nil =>
        cases hchild with
        | leaf _ f' _ heq' =>
          rw [if_pos (by rw [heq']; rfl)]
          have hdata : (t.getD r nodeD).dataD = sym := by rw [heq']; rfl
          rw [hdata]
          simp only [List.length_cons, List.length_nil]
          rfl
      | cons b' p' =>
        have hchildbr : (t.getD r nodeD).isLeaf = false := by
          cases hchild with
          | left _ f' l' r' _ _ heq' _ => rw [heq']; rfl
          | right _ f' l' r' _ _ heq' _ => rw [heq']; rfl
        rw [if_neg (by rw [hchildbr]; exact Bool.false_ne_true)]
        have := ih r sym (i + 1) rem' raw hchild hchildbr hraw
          (by simp only [List.length_cons] at hrem ⊢; omega)
          (fun k hk => by
            simp only [List.length_cons] at hk
            have := hbits (k + 1) (by simp only [List.length_cons]; omega)
            rw [show i + (k + 1) = i + 1 + k from by omega] at this
            simpa using this)
        rw [this]
        simp only [List.length_cons]
        congr 1
        · omega
        · omega

/-- Decoding the concatenated bit paths of a symbol sequence emits exactly
that sequence. -/
lemma decompress_loop_concat (t : List Node) (root orig : Nat)
    (bytes : List Nat) (paths : Nat → List Bool)
    (hroot : (t.getD root nodeD).isLeaf = false) :
    ∀ (syms : List Nat) (i rem : Nat) (raw : List Nat),
    raw.length + syms.length = orig →
    (∀ s ∈ syms, PathTo t root (paths s) s) →
    (catPaths paths syms).length ≤ rem →
    (∀ k, k < (catPaths paths syms).length →
      bitAt bytes (i + k) = (catPaths paths syms).getD k false) →
    decompress_loop t root orig bytes false rem i root raw = raw ++ syms := by
  intro syms
  induction syms with
  | nil =>
    intro i rem raw hlen hpaths hrem hbits
    rw [decompress_loop_break t root orig bytes false rem i root raw
      (by simp at hlen; omega)]
    simp
  | cons s rest ih =>
    intro i rem raw hlen hpaths hrem hbits
    have hp : PathTo t root (paths s) s := hpaths s (List.mem_cons_self s rest)
    have hcat : catPaths paths (s :: rest)
        = paths s ++ catPaths paths rest := rfl
    rw [hcat] at hrem hbits
    simp only [List.length_append] at hrem
    have hwalk := decompress_loop_walk t root orig bytes (paths s) root s
      i rem raw hp hroot (by simp only [List.length_cons] at hlen; omega)
      (by omega)
      (fun k hk => by
        have := hbits k (by simp only [List.length_append]; omega)
        rw [this, getD_append_left (paths s) _ k false hk])
    rw [hwalk]
    have := ih (i + (paths s).length) (rem - (paths s).length) (raw ++ [s])
      (by simp only [List.length_append, List.length_cons,
        List.length_nil] at hlen ⊢; omega)
      (fun x hx => hpaths x (List.mem_cons_of_mem s hx))
      (by omega)
      (fun k hk => by
        have := hbits ((paths s).length + k)
          (by simp only [List.length_append]; omega)
        rw [show i + ((paths s).length + k)
            = i + (paths s).length + k from by omega] at this
        rw [this, getD_append_right (paths s) _ _ false (by omega)]
        congr 1
        omega)
    rw [this, List.append_assoc]
    rfl

/-! ## Compress loop characterization -/

lemma catPaths_cons (paths : Nat → List Bool) (s : Nat) (rest : List Nat) :
    catPaths paths (s :: rest) = paths s ++ catPaths paths rest := rfl

lemma catPaths_eq_nil (paths : Nat → List Bool) :
    ∀ (syms : List Nat), (∀ s ∈ syms, paths s = []) →
      catPaths paths syms = [] := by
  intro syms
  induction syms with
  | nil => intro h; rfl
  | cons s rest ih =>
    intro h
    rw [catPaths_cons, h s (List.mem_cons_self s rest),
      ih (fun x hx => h x (List.mem_cons_of_mem s hx))]
    rfl

lemma lookupPath_spec (sym : Nat) (nodes : List Node) (root : Nat)
    (cache : Cache) (h : CacheOK nodes root cache) :
    (lookupPath sym nodes root cache).1 = find_leaf sym nodes (root + 1) root ∧
    CacheOK nodes root (lookupPath sym nodes root cache).2 := by
  cases hcs : cache sym with
  | some p =>
    have h1 : lookupPath sym nodes root cache = (some p, cache) := by
      unfold lookupPath check_cache
      rw [hcs]
    rw [h1]
    dsimp only
    exact ⟨(h sym p hcs).symm, h⟩
  | none =>
    cases hfl : find_leaf sym nodes (root + 1) root with
    | some p =>
      have h1 : lookupPath sym nodes root cache
          = (some p, Function.update cache sym (some p)) := by
        unfold lookupPath check_cache
        rw [hcs, hfl]
      rw [h1]
      dsimp only
      refine ⟨rfl, ?_⟩
      intro b q hq
      by_cases hbs : b = sym
      · subst hbs
        rw [Function.update_same] at hq
        have := Option.some.inj hq
        subst this
        exact hfl
      · rw [Function.update_noteq hbs] at hq
        exact h b q hq
    | none =>
      have h1 : lookupPath sym nodes root cache = (none, cache) := by
        unfold lookupPath check_cache
        rw [hcs, hfl]
      rw [h1]
      dsimp only
      exact ⟨rfl, h⟩

lemma compress_go_spec (nodes : List Node) (root : Nat) :
    ∀ (data : List Nat) (cache : Cache) (s : PackState),
    CacheOK nodes root cache →
    (∀ b ∈ data, (find_leaf b nodes (root + 1) root).isSome) →
    (compress_go nodes root data cache s).1
      = some (pushBits s (catPaths (pathOf nodes root) data)) := by
  intro data
  induction data with
  | nil => intro cache s hc hf; rfl
  | cons b rest ih =>
    intro cache s hc hf
    obtain ⟨h1, h2⟩ := lookupPath_spec b nodes root cache hc
    obtain ⟨p, hp⟩ := Option.isSome_iff_exists.mp
      (hf b (List.mem_cons_self b rest))
    have hpath : pathOf nodes root b = p := by
      rw [pathOf, hp]
      rfl
    have hgo : compress_go nodes root (b :: rest) cache s
        = compress_go nodes root rest (lookupPath b nodes root cache).2
            (pushBits s p) := by
      rw [compress_go]
      rw [h1, hp]
    rw [hgo, ih (lookupPath b nodes root cache).2 (pushBits s p) h2
      (fun x hx => hf x (List.mem_cons_of_mem b hx))]
    rw [pushBits_append, catPaths_cons, hpath]

lemma finishPack_packInit (bits : List Bool) :
    finishPack (pushBits packInit bits) = (packBytes bits, bits.length) := by
  have hpi : packInit = (⟨[], pendVal 0 [], ([] : List Bool).length,
      8 * ([] : List Nat).length⟩ : PackState) := rfl
  rw [hpi, pushBits_finish bits [] [] (by simp)]
  simp

/-- Closed form of `compress` on nonempty data whose symbols all resolve:
the packed concatenation of the bit paths or, when that concatenation is
empty (the single-leaf tree), one zero bit per input byte. -/
lemma compress_eq (data : List Nat) (nodes : List Node) (root : Nat)
    (cache : Cache) (hne : data ≠ []) (hc : CacheOK nodes root cache)
    (hf : ∀ b ∈ data, (find_leaf b nodes (root + 1) root).isSome) :
    (compress data nodes root cache).1
      = if (catPaths (pathOf nodes root) data).length = 0 then
          CompressOut.ok data.length
            (some (packBytes (List.replicate data.length false)))
        else
          CompressOut.ok (catPaths (pathOf nodes root) data).length
            (some (packBytes (catPaths (pathOf nodes root) data))) := by
  have hlen0 : ¬ data.length = 0 := by
    intro h
    exact hne (List.eq_nil_of_length_eq_zero h)
  have hspec := compress_go_spec nodes root data cache packInit hc hf
  rw [compress, if_neg hlen0]
  cases hgo : compress_go nodes root data cache packInit with
  | mk fst snd =>
    rw [hgo] at hspec
    dsimp only at hspec
    subst hspec
    dsimp only
    rw [finishPack_packInit]
    dsimp only
    by_cases hz : (catPaths (pathOf nodes root) data).length = 0
    · rw [if_pos hz, if_pos hz, finishPack_packInit]
      simp
    · rw [if_neg hz, if_neg hz]

/-! ## Record-level decode lemmas -/

/-- Decoding a record whose root is a leaf emits the root symbol once per
bit, capped at the recorded original size, never touching the bit values. -/
lemma decompress_leaf_root (c : Compressed_file) (f d : Nat)
    (hne : ¬ c.huffman_tree.length = 0)
    (hroot : c.huffman_tree.getD (c.huffman_tree.length - 1) nodeD
      = .leaf f d) :
    decompress c
      = .ok (List.replicate (min c.data_size c.original_size) d) := by
  rw [decompress, if_neg hne]
  dsimp only
  have hisleaf : (c.huffman_tree.getD (c.huffman_tree.length - 1)
      nodeD).isLeaf = true := by
    rw [hroot]
    rfl
  rw [hisleaf, decompress_loop_leaf]
  have hdata : (c.huffman_tree.getD (c.huffman_tree.length - 1)
      nodeD).dataD = d := by
    rw [hroot]
    rfl
  rw [hdata]
  simp

/-- Decoding a record whose bits begin with the concatenated paths of a
symbol sequence of the recorded original length emits exactly that
sequence. -/
lemma decompress_branch_root (c : Compressed_file) (syms : List Nat)
    (paths : Nat → List Bool)
    (hne : ¬ c.huffman_tree.length = 0)
    (hbr : (c.huffman_tree.getD (c.huffman_tree.length - 1)
      nodeD).isLeaf = false)
    (horig : syms.length = c.original_size)
    (hpaths : ∀ s ∈ syms,
      PathTo c.huffman_tree (c.huffman_tree.length - 1) (paths s) s)
    (hds : (catPaths paths syms).length ≤ c.data_size)
    (hbits : ∀ k, k < (catPaths paths syms).length →
      bitAt c.compressed_data k = (catPaths paths syms).getD k false) :
    decompress c = .ok syms := by
  rw [decompress, if_neg hne]
  dsimp only
  rw [hbr]
  have := decompress_loop_concat c.huffman_tree
    (c.huffman_tree.length - 1) c.original_size c.compressed_data paths hbr
    syms 0 c.data_size []
    (by simp [horig]) hpaths hds
    (fun k hk => by
      have := hbits k hk
      rw [Nat.zero_add]
      exact this)
  rw [this]
  simp

/-! ## Pipeline round trip -/

lemma emptyCache_ok (nodes : List Node) (root : Nat) :
    CacheOK nodes root emptyCache := by
  intro b p h
  cases h

/-- The compression pipeline succeeds on every nonempty byte buffer and its
output decodes back to the buffer. -/
lemma encode_decode (data : List Nat) (hne : data ≠ [])
    (hbyte : ∀ b ∈ data, b < 256) :
    ∃ r, encodePipeline data = some r ∧ decodePipeline r = Except.ok data := by
  have hLleaf : ∀ x ∈ sort_nodes (buildLeaves (count_frequencies data)),
      x.isLeaf = true :=
    sort_nodes_isLeaf _ (buildLeaves_isLeaf _)
  have hsyms : ∀ b ∈ data,
      b ∈ leafSyms (sort_nodes (buildLeaves (count_frequencies data))) := by
    intro b hb
    have hcount : count_frequencies data b ≠ 0 := by
      rw [count_frequencies_eq data b]
      have := List.count_pos_iff.mpr hb
      omega
    exact mem_leafSyms_of_leaf_mem ((sort_nodes_mem _ _).mpr
      (leaf_mem_buildLeaves _ b (hbyte b hb) hcount))
  have hLne : sort_nodes (buildLeaves (count_frequencies data)) ≠ [] := by
    obtain ⟨b, hb⟩ := List.exists_mem_of_ne_nil data hne
    intro h
    have := hsyms b hb
    rw [h] at this
    cases this
  obtain ⟨nodes, root, heq, hlen2, hroot1, hprefix, hwf, hpack, hcover,
    hrootbr⟩ := construct_tree_spec _ hLne hLleaf
  have hfind : ∀ b ∈ data, (find_leaf b nodes (root + 1) root).isSome := by
    intro b hb
    obtain ⟨p, hp⟩ := find_leaf_complete hwf b root (hcover b (hsyms b hb))
    rw [hp]
    rfl
  have hcomp := compress_eq data nodes root emptyCache hne
    (emptyCache_ok nodes root) hfind
  have hn1 : 1 ≤ (sort_nodes (buildLeaves (count_frequencies data))).length :=
    List.length_pos.mpr hLne
  have henc : ∀ out cache2,
      compress data nodes root emptyCache = (out, cache2) →
      encodePipeline data
        = match out with
          | CompressOut.ok ds (some bytes) =>
            some ⟨nodes, ds, bytes, data.length⟩
          | _ => none := by
    intro out cache2 hc2
    rw [encodePipeline]
    rw [heq]
    dsimp only
    rw [hc2]
    cases out with
    | ok ds ob => cases ob <;> rfl
    | tree_error => rfl
  by_cases hz : (catPaths (pathOf nodes root) data).length = 0
  · -- single distinct symbol: the tree is one leaf and zero bits are packed
    rw [if_pos hz] at hcomp
    have hone : (sort_nodes (buildLeaves (count_frequencies data))).length
        = 1 := by
      by_contra hne1
      have h2 : 2 ≤ (sort_nodes (buildLeaves
          (count_frequencies data))).length := by omega
      obtain ⟨bf, bl, br, hbr⟩ := hrootbr h2
      obtain ⟨b0, rest, rfl⟩ := List.exists_cons_of_ne_nil hne
      obtain ⟨p, hp⟩ := Option.isSome_iff_exists.mp
        (hfind b0 (List.mem_cons_self b0 rest))
      have hpathto := find_leaf_sound b0 nodes (root + 1) root p hp
      have hpne : p ≠ [] := by
        intro hp0
        subst hp0
        cases hpathto with
        | leaf _ f _ hleafeq => rw [hleafeq] at hbr; cases hbr
      have : pathOf nodes root b0 = p := by rw [pathOf, hp]; rfl
      rw [catPaths_cons, this] at hz
      simp only [List.length_append] at hz
      have := List.length_pos.mpr hpne
      omega
    have hroot0 : root = 0 := by omega
    subst hroot0
    have hnlen1 : nodes.length = 1 := by omega
    have hl0 : (nodes.getD 0 nodeD).isLeaf = true := by
      rw [getD_of_take_eq hprefix (by omega)]
      exact hLleaf _ (getD_mem (by omega))
    match hnode : nodes.getD 0 nodeD with
    | .branch bf bl br => rw [hnode] at hl0; cases hl0
    | .leaf f0 d0 =>
    have halld : ∀ b ∈ data, b = d0 := by
      intro b hb
      have := hfind b hb
      rw [find_leaf_succ_leaf hnode] at this
      by_cases hd : d0 = b
      · exact hd.symm
      · rw [if_neg hd] at this; cases this
    have hdata_rep : data = List.replicate data.length d0 :=
      List.eq_replicate_iff.mpr ⟨rfl, halld⟩
    cases hc2 : compress data nodes 0 emptyCache with
    | mk out cache2 =>
      rw [hc2] at hcomp
      dsimp only at hcomp
      subst hcomp
      refine ⟨⟨nodes, data.length,
        packBytes (List.replicate data.length false), data.length⟩,
        by rw [henc _ _ hc2], ?_⟩
      rw [decodePipeline]
      dsimp only
      rw [packBytes_replicate_false data.length]
      have hdec := decompress_leaf_root
        ⟨false, data.length, nodes,  data.length,
          List.replicate ((data.length + 7) / 8) 0⟩ f0 d0
        (by dsimp only; omega) (by dsimp only; rw [hnlen1]; exact hnode)
      rw [hdec]
      dsimp only
      rw [Nat.min_self]
      rw [← hdata_rep]
  · -- at least two distinct symbols: the root is a branch
    rw [if_neg hz] at hcomp
    have h2 : 2 ≤ (sort_nodes (buildLeaves (count_frequencies data))).length
        := by
      by_contra hlt
      have hone : (sort_nodes (buildLeaves
          (count_frequencies data))).length = 1 := by omega
      have hroot0 : root = 0 := by omega
      subst hroot0
      have hl0 : (nodes.getD 0 nodeD).isLeaf = true := by
        rw [getD_of_take_eq hprefix (by omega)]
        exact hLleaf _ (getD_mem (by omega))
      match hnode : nodes.getD 0 nodeD with
      | .branch bf bl br => rw [hnode] at hl0; cases hl0
      | .leaf f0 d0 =>
      have hallnil : ∀ b ∈ data, pathOf nodes 0 b = [] := by
        intro b hb
        have := hfind b hb
        rw [find_leaf_succ_leaf hnode] at this
        by_cases hd : d0 = b
        · rw [pathOf, find_leaf_succ_leaf hnode, if_pos hd]
          rfl
        · rw [if_neg hd] at this; cases this
      rw [catPaths_eq_nil _ data hallnil] at hz
      exact hz rfl
    obtain ⟨bf, bl, br, hbr⟩ := hrootbr h2
    have hbrf : (nodes.getD root nodeD).isLeaf = false := by
      rw [hbr]
      rfl
    cases hc2 : compress data nodes root emptyCache with
    | mk out cache2 =>
      rw [hc2] at hcomp
      dsimp only at hcomp
      subst hcomp
      refine ⟨⟨nodes, (catPaths (pathOf nodes root) data).length,
        packBytes (catPaths (pathOf nodes root) data), data.length⟩,
        by rw [henc _ _ hc2], ?_⟩
      rw [decodePipeline]
      dsimp only
      have hrooteq : nodes.length - 1 = root := by omega
      apply decompress_branch_root _ data (pathOf nodes root)
      · dsimp only
        omega
      · dsimp only
        rw [hrooteq]
        exact hbrf
      · rfl
      · intro sm hsm
        dsimp only
        rw [hrooteq]
        obtain ⟨p, hp⟩ := Option.isSome_iff_exists.mp (hfind sm hsm)
        have : pathOf nodes root sm = p := by rw [pathOf, hp]; rfl
        rw [this]
        exact find_leaf_sound sm nodes (root + 1) root p hp
      · dsimp only
        exact Nat.le_refl _
      · intro k hk
        dsimp only
        exact bitAt_packBytes k _ hk

/-! ## Single-symbol pipeline -/

lemma filterMap_range_single {α : Type} (x : α) (b : Nat) :
    ∀ n, (List.range n).filterMap
        (fun i => if i = b then some x else none)
      = if b < n then [x] else [] := by
  intro n
  induction n with
  | zero => simp
  | succ n ih =>
    rw [List.range_succ, List.filterMap_append, ih]
    by_cases hbn : b < n
    · have hnb : ¬ n = b := by omega
      rw [if_pos hbn, if_pos (by omega)]
      simp [hnb]
    · by_cases hnb : n = b
      · subst hnb
        rw [if_neg hbn, if_pos (by omega)]
        simp
      · rw [if_neg hbn, if_neg (by omega)]
        simp [hnb]

lemma buildLeaves_single (freq : Nat → Nat) (b : Nat) (hb : b < 256)
    (hfb : freq b ≠ 0) (hother : ∀ i, i ≠ b → freq i = 0) :
    buildLeaves freq = [Node.leaf (freq b) b] := by
  rw [buildLeaves]
  have hfun : (fun i => if freq i ≠ 0 then some (Node.leaf (freq i) i)
      else none) = (fun i => if i = b then some (Node.leaf (freq b) b)
      else none) := by
    funext i
    by_cases hib : i = b
    · subst hib
      rw [if_pos hfb, if_pos rfl]
    · rw [if_neg (by rw [hother i hib]; exact fun h => h rfl), if_neg hib]
  rw [hfun, filterMap_range_single _ b 256, if_pos hb]

lemma count_frequencies_replicate (N b i : Nat) :
    count_frequencies (List.replicate N b) i = if i = b then N else 0 := by
  rw [count_frequencies_eq, List.count_replicate]
  by_cases hib : b = i
  · subst hib
    simp
  · have : ¬ i = b := fun h => hib h.symm
    simp [hib, this]

/-! ## Claim theorems -/

/-- C1 counterexample: on the empty buffer the pipeline builds no tree
(`construct_tree` of zero leaves fails), so compress-then-decompress cannot
return the empty buffer; the claim fails at `B = []`. -/
theorem C1_counterexample :
    ¬ ∃ r, encodePipeline [] = some r ∧ decodePipeline r = Except.ok [] := by
  rintro ⟨r, hr, -⟩
  have h : encodePipeline [] = none := rfl
  rw [h] at hr
  cases hr

/-- C1 (amended): for every nonempty byte buffer, compressing with the
codec (frequency count, tree build, compress) and decoding the result with
`decompress`, using the recorded tree, bit count and original size, yields
exactly the original buffer. -/
theorem C1_roundtrip_nonempty (data : List Nat) (hne : data ≠ [])
    (hbyte : ∀ b ∈ data, b < 256) :
    ∃ r, encodePipeline data = some r ∧ decodePipeline r = Except.ok data :=
  encode_decode data hne hbyte

/-- C1 witness: a concrete two-symbol buffer round-trips. -/
theorem C1_roundtrip_nonempty_witness :
    ∃ r, encodePipeline [72, 105, 72] = some r ∧
      decodePipeline r = Except.ok [72, 105, 72] :=
  C1_roundtrip_nonempty [72, 105, 72] (by decide) (by decide)

/-- C3: on a sorted leaf array of `n ≥ 1` leaves, `construct_tree` performs
exactly `n - 1` merge steps (appending `n - 1` branches after the untouched
leaf prefix, for `2n - 1` nodes in total), returns the last constructed
slot `2n - 2` as root (the sole leaf at index 0 when `n = 1`), and gives
every branch the sum of its children's frequencies. -/
theorem C3_construct_tree_shape (L : List Node) (n : Nat) (hn : 1 ≤ n)
    (hlen : L.length = n) (hleaf : ∀ x ∈ L, x.isLeaf = true)
    (hsorted : List.Sorted nodeLE L) :
    ∃ nodes root, construct_tree L n = some (nodes, root) ∧
      nodes.length = 2 * n - 1 ∧
      nodes.take n = L ∧
      (nodes.drop n).length = n - 1 ∧
      root = 2 * n - 2 ∧
      (n = 1 → root = 0) ∧
      ∀ j f l r, nodes.getD j nodeD = Node.branch f l r →
        f = (nodes.getD l nodeD).frequency + (nodes.getD r nodeD).frequency := by
  subst hlen
  obtain ⟨nodes, root, heq, h1, h2, h3, -, hpack, -, -⟩ :=
    construct_tree_spec L (by
      intro h
      rw [h] at hn
      cases hn) hleaf
  refine ⟨nodes, root, heq, h1, h3, ?_, by omega, by omega, ?_⟩
  · rw [List.length_drop]
    omega
  · intro j f l r hj
    exact (hpack j f l r hj).2.2

/-- C3 witness: two sorted leaves produce one merge step, three nodes,
root 2, and a branch of summed frequency. -/
theorem C3_construct_tree_shape_witness :
    ∃ nodes root,
      construct_tree [Node.leaf 1 10, Node.leaf 2 20] 2
        = some (nodes, root) ∧
      nodes.length = 2 * 2 - 1 ∧
      nodes.take 2 = [Node.leaf 1 10, Node.leaf 2 20] ∧
      (nodes.drop 2).length = 2 - 1 ∧
      root = 2 * 2 - 2 ∧
      (2 = 1 → root = 0) ∧
      ∀ j f l r, nodes.getD j nodeD = Node.branch f l r →
        f = (nodes.getD l nodeD).frequency
          + (nodes.getD r nodeD).frequency :=
  C3_construct_tree_shape [Node.leaf 1 10, Node.leaf 2 20] 2 (by decide)
    (by decide) (by decide) (by decide)

/-- C4: every node array produced by `construct_tree` from a sorted
nonempty leaf array has all branch children at indices strictly below their
parent, so the index structure is acyclic. -/
theorem C4_children_precede_parent (L : List Node) (n : Nat) (hn : 1 ≤ n)
    (hlen : L.length = n) (hleaf : ∀ x ∈ L, x.isLeaf = true)
    (hsorted : List.Sorted nodeLE L) :
    ∃ nodes root, construct_tree L n = some (nodes, root) ∧
      ∀ j f l r, nodes.getD j nodeD = Node.branch f l r →
        l < j ∧ r < j := by
  subst hlen
  obtain ⟨nodes, root, heq, -, -, -, hwf, -, -, -⟩ :=
    construct_tree_spec L (by
      intro h
      rw [h] at hn
      cases hn) hleaf
  exact ⟨nodes, root, heq, fun j f l r hj => hwf j f l r hj⟩

/-- C4 witness: the concrete three-node tree has its children before the
branch. -/
theorem C4_children_precede_parent_witness :
    ∃ nodes root,
      construct_tree [Node.leaf 1 10, Node.leaf 2 20] 2
        = some (nodes, root) ∧
      ∀ j f l r, nodes.getD j nodeD = Node.branch f l r →
        l < j ∧ r < j :=
  C4_children_precede_parent [Node.leaf 1 10, Node.leaf 2 20] 2 (by decide)
    (by decide) (by decide) (by decide)

/-- C7 counterexample: on `AAAABB` the code builds the two-leaf tree with
`B` (symbol 66) as the LEFT child of the root and `A` (symbol 65) with bit
path `1`, not `0` as claimed; the recorded bit length 6 and first packed
byte `0xF0` only fit these reversed roles. -/
theorem C7_counterexample :
    encodePipeline [65, 65, 65, 65, 66, 66]
      = some ⟨[Node.leaf 2 66, Node.leaf 4 65, Node.branch 6 0 1], 6,
          [240], 6⟩ ∧
    pathOf [Node.leaf 2 66, Node.leaf 4 65, Node.branch 6 0 1] 2 65
      ≠ [false] ∧
    [Node.leaf 2 66, Node.leaf 4 65, Node.branch 6 0 1].getD
        (Node.branch 6 0 1).leftD nodeD
      ≠ Node.leaf 4 65 := by
  refine ⟨rfl, by decide, by decide⟩

/-- C7 (amended): for the 6-byte input `AAAABB` the histogram is
`{A:4, B:2}`, the two-leaf tree has `B` as the left child (bit path `0`)
and `A`, the higher-frequency symbol, as the right child (bit path `1`),
the recorded bit length is 6 and the first packed byte is `0xF0`. -/
theorem C7_scenario :
    count_frequencies [65, 65, 65, 65, 66, 66] 65 = 4 ∧
    count_frequencies [65, 65, 65, 65, 66, 66] 66 = 2 ∧
    encodePipeline [65, 65, 65, 65, 66, 66]
      = some ⟨[Node.leaf 2 66, Node.leaf 4 65, Node.branch 6 0 1], 6,
          [240], 6⟩ ∧
    pathOf [Node.leaf 2 66, Node.leaf 4 65, Node.branch 6 0 1] 2 66
      = [false] ∧
    pathOf [Node.leaf 2 66, Node.leaf 4 65, Node.branch 6 0 1] 2 65
      = [true] := by
  refine ⟨by decide, by decide, rfl, by decide, by decide⟩

/-- C9: a cache hit in `check_cache` returns exactly the stored path with
the cache untouched, and a repeated `lookupPath` of the same symbol over
the same (immutably embedded) node array returns the identical path and
leaves the cache as the first lookup left it. -/
theorem C9_lookup_idempotent :
    (∀ (sym : Nat) (cache : Cache) (p : List Bool),
      cache sym = some p → check_cache sym cache = some p) ∧
    (∀ (sym : Nat) (nodes : List Node) (root : Nat) (cache : Cache)
        (p : List Bool), cache sym = some p →
      lookupPath sym nodes root cache = (some p, cache)) ∧
    (∀ (sym : Nat) (nodes : List Node) (root : Nat) (cache : Cache),
      lookupPath sym nodes root (lookupPath sym nodes root cache).2
        = lookupPath sym nodes root cache) := by
  refine ⟨fun sym cache p h => h, ?_, ?_⟩
  · intro sym nodes root cache p h
    unfold lookupPath check_cache
    rw [h]
  · intro sym nodes root cache
    cases hcs : cache sym with
    | some p =>
      have h1 : lookupPath sym nodes root cache = (some p, cache) := by
        unfold lookupPath check_cache
        rw [hcs]
      rw [h1]
      exact h1
    | none =>
      cases hfl : find_leaf sym nodes (root + 1) root with
      | some p =>
        have h1 : lookupPath sym nodes root cache
            = (some p, Function.update cache sym (some p)) := by
          unfold lookupPath check_cache
          rw [hcs, hfl]
        rw [h1]
        unfold lookupPath check_cache
        dsimp only
        rw [Function.update_same]
      | none =>
        have h1 : lookupPath sym nodes root cache = (none, cache) := by
          unfold lookupPath check_cache
          rw [hcs, hfl]
        rw [h1]
        exact h1

/-- C9 witness: a concrete hit returns the stored path unchanged. -/
theorem C9_lookup_idempotent_witness :
    check_cache 7 (Function.update emptyCache 7 (some [true, false]))
      = some [true, false] :=
  C9_lookup_idempotent.1 7 (Function.update emptyCache 7 (some [true, false]))
    [true, false] (by simp [emptyCache])

/-- C10: on zero-length input `compress` succeeds immediately, recording a
zero bit count and a `NULL` output buffer, for every tree, root and cache —
so neither the tree nor the cache is consulted. -/
theorem C10_compress_empty (nodes : List Node) (root : Nat) (cache : Cache) :
    compress [] nodes root cache = (CompressOut.ok 0 none, cache) := rfl

/-- C5: compressing a buffer of `N ≥ 1` copies of one byte yields the
single-leaf tree for that byte, a recorded bit length of exactly `N` (one
zero bit per input symbol), and all-zero packed bytes. -/
theorem C5_single_symbol_run (N b : Nat) (hN : 1 ≤ N) (hb : b < 256) :
    encodePipeline (List.replicate N b)
      = some ⟨[Node.leaf N b], N, List.replicate ((N + 7) / 8) 0, N⟩ := by
  have hne : List.replicate N b ≠ [] := by
    intro h
    have := congrArg List.length h
    simp at this
    omega
  have hfb : count_frequencies (List.replicate N b) b = N := by
    rw [count_frequencies_replicate]
    simp
  have hleaves : buildLeaves (count_frequencies (List.replicate N b))
      = [Node.leaf N b] := by
    have h1 := buildLeaves_single (count_frequencies (List.replicate N b)) b
      hb (by rw [hfb]; omega)
      (fun i hib => by rw [count_frequencies_replicate, if_neg hib])
    rw [h1, hfb]
  rw [encodePipeline, hleaves]
  have hsort : sort_nodes [Node.leaf N b] = [Node.leaf N b] := rfl
  rw [hsort]
  have htree : construct_tree [Node.leaf N b] ([Node.leaf N b]).length
      = some ([Node.leaf N b], 0) := rfl
  rw [htree]
  dsimp only
  have hnode : ([Node.leaf N b]).getD 0 nodeD = Node.leaf N b := rfl
  have hfind : ∀ x ∈ List.replicate N b,
      (find_leaf x [Node.leaf N b] (0 + 1) 0).isSome := by
    intro x hx
    obtain ⟨-, rfl⟩ := List.mem_replicate.mp hx
    rw [find_leaf_succ_leaf hnode, if_pos rfl]
    rfl
  have hcomp := compress_eq (List.replicate N b) [Node.leaf N b] 0 emptyCache
    hne (emptyCache_ok _ _) hfind
  have hallnil : ∀ x ∈ List.replicate N b,
      pathOf [Node.leaf N b] 0 x = [] := by
    intro x hx
    obtain ⟨-, rfl⟩ := List.mem_replicate.mp hx
    rw [pathOf, find_leaf_succ_leaf hnode, if_pos rfl]
    rfl
  rw [catPaths_eq_nil _ _ hallnil] at hcomp
  simp only [List.length_nil, List.length_replicate] at hcomp
  rw [if_pos trivial, packBytes_replicate_false] at hcomp
  cases hc2 : compress (List.replicate N b) [Node.leaf N b] 0 emptyCache with
  | mk out cache2 =>
    rw [hc2] at hcomp
    dsimp only at hcomp
    subst hcomp
    dsimp only
    rw [List.length_replicate]

/-- C5 witness: nine copies of byte 7 pack into nine zero bits. -/
theorem C5_single_symbol_run_witness :
    encodePipeline (List.replicate 9 7)
      = some ⟨[Node.leaf 9 7], 9, List.replicate ((9 + 7) / 8) 0, 9⟩ :=
  C5_single_symbol_run 9 7 (by decide) (by decide)

/-- C6: on well-formed records `decompress` emits exactly `original_size`
symbols. With a leaf root it writes the root symbol `original_size` times
without consulting the bit values; with a branch root it walks the packed
bits MSB-first (`0` to the left child, `1` to the right), emitting and
resetting at leaves, and stops after `original_size` symbols; and extra
trailing bits beyond a run that already reached the target change nothing
and cause no error. -/
theorem C6_decompress_spec :
    (∀ (c : Compressed_file) (f d : Nat),
      ¬ c.huffman_tree.length = 0 →
      c.huffman_tree.getD (c.huffman_tree.length - 1) nodeD
        = Node.leaf f d →
      c.original_size ≤ c.data_size →
      decompress c = Except.ok (List.replicate c.original_size d) ∧
      ∀ bytes2 : List Nat,
        decompress { c with compressed_data := bytes2 } = decompress c) ∧
    (∀ (c : Compressed_file) (syms : List Nat) (paths : Nat → List Bool),
      ¬ c.huffman_tree.length = 0 →
      (c.huffman_tree.getD (c.huffman_tree.length - 1) nodeD).isLeaf
        = false →
      syms.length = c.original_size →
      (∀ s ∈ syms,
        PathTo c.huffman_tree (c.huffman_tree.length - 1) (paths s) s) →
      (catPaths paths syms).length ≤ c.data_size →
      (∀ k, k < (catPaths paths syms).length →
        bitAt c.compressed_data k = (catPaths paths syms).getD k false) →
      decompress c = Except.ok syms) ∧
    (∀ (c : Compressed_file) (out : List Nat) (k : Nat),
      decompress c = Except.ok out → out.length = c.original_size →
      decompress { c with data_size := c.data_size + k }
        = Except.ok out) := by
  refine ⟨?_, ?_, ?_⟩
  · intro c f d hne hroot hle
    constructor
    · rw [decompress_leaf_root c f d hne hroot]
      have : min c.data_size c.original_size = c.original_size := by omega
      rw [this]
    · intro bytes2
      rw [decompress_leaf_root c f d hne hroot,
        decompress_leaf_root { c with compressed_data := bytes2 } f d hne
          hroot]
  · intro c syms paths hne hbr horig hpaths hds hbits
    exact decompress_branch_root c syms paths hne hbr horig hpaths hds hbits
  · intro c out k hdec hlen
    rw [decompress] at hdec
    by_cases hne : c.huffman_tree.length = 0
    · rw [if_pos hne] at hdec
      cases hdec
    · rw [if_neg hne] at hdec
      dsimp only at hdec
      have hout := Except.ok.inj hdec
      rw [decompress, if_neg hne]
      dsimp only
      rw [decompress_loop_pad c.huffman_tree (c.huffman_tree.length - 1)
        c.original_size c.compressed_data
        ((c.huffman_tree.getD (c.huffman_tree.length - 1) nodeD).isLeaf)
        c.data_size k 0 (c.huffman_tree.length - 1) []
        (by rw [hout, hlen]), hout]

/-- C6 witness: a leaf-root record with padding bits emits the recorded
count of root symbols. -/
theorem C6_decompress_spec_witness :
    decompress ⟨false, 2, [Node.leaf 2 7], 5, [0]⟩
      = Except.ok (List.replicate 2 7) :=
  (C6_decompress_spec.1 ⟨false, 2, [Node.leaf 2 7], 5, [0]⟩ 2 7 (by decide)
    (by decide) (by decide)).1

/-! ## Container parser behaviour -/

lemma read_compressed_bad_magic (m rest : List Nat) (hm : m.length = 4)
    (hne : m ≠ magicBytes) :
    read_compressed (m ++ rest) = ReadResult.fileMagicError := by
  rw [read_compressed]
  rw [if_neg (by simp only [List.length_append, hm]; omega)]
  rw [List.take_left' hm]
  rw [if_pos hne]

lemma leBytes_length (k n : Nat) : (leBytes k n).length = k := by
  induction k generalizing n with
  | zero => rfl
  | succ k ih => simp [leBytes, ih]

lemma leVal_cons (b : Nat) (bs : List Nat) :
    leVal (b :: bs) = b + 256 * leVal bs := rfl

lemma leVal_leBytes (k n : Nat) : leVal (leBytes k n) = n % 2 ^ (8 * k) := by
  induction k generalizing n with
  | zero => simp [leBytes, leVal, Nat.mod_one]
  | succ k ih =>
    rw [leBytes, leVal_cons, ih]
    have hpow : 2 ^ (8 * (k + 1)) = 256 * 2 ^ (8 * k) := by
      rw [Nat.mul_succ, pow_add]; ring
    rw [hpow, Nat.mod_mul]

lemma leLong_leBytes (n : Nat) (h : n < 2 ^ 63) :
    leLong (leBytes 8 n) = (n : Int) := by
  have hv : leVal (leBytes 8 n) = n := by
    rw [leVal_leBytes]
    exact Nat.mod_eq_of_lt (lt_trans h (by norm_num))
  rw [leLong, hv, if_pos h]

lemma takeWhile_append_nul (p rest : List Nat) (hp : 0 ∉ p) :
    (p ++ 0 :: rest).takeWhile (fun b => b ≠ 0) = p := by
  induction p with
  | nil => simp [List.takeWhile]
  | cons a q ih =>
    have ha : a ≠ 0 := fun h => hp (by simp [h])
    have hq : 0 ∉ q := fun h => hp (List.mem_cons_of_mem _ h)
    simp only [List.cons_append, List.takeWhile]
    rw [decide_eq_true ha]
    exact congrArg (List.cons a) (ih hq)

/-- C8: `deserialize_item` applied to the output of `serialize_item` (with any
extra bytes following, so at least the record's bytes remain) reconstructs the
original item — same tag, path, permissions or payload — and reports exactly
the number of bytes `serialize_item` produced, for every item whose path has
no embedded NUL and whose sizes fit an `int64_t`. -/
theorem C8_serialize_roundtrip (it : Directory_item) (extra : List Nat)
    (hv : ItemValid it) :
    deserialize_item (serialize_item it ++ extra)
      = DeserResult.ok it (serialize_item it).length := by
  cases it with
  | dir path perms =>
    rcases hv with ⟨hnp, hperm, hsz⟩
    have hS : 1 + (4 + (path.length + 1)) = path.length + 6 := by omega
    have hbuf : serialize_item (.dir path perms) ++ extra
        = (leBytes 8 (path.length + 6) ++ [1])
          ++ (leBytes 4 perms ++ (path ++ 0 :: extra)) := by
      simp [serialize_item, hS, List.append_assoc]
    rw [hbuf]
    set B : List Nat := (leBytes 8 (path.length + 6) ++ [1])
      ++ (leBytes 4 perms ++ (path ++ 0 :: extra)) with hB
    have hlenB : B.length = 14 + path.length + extra.length := by
      rw [hB]
      simp only [List.length_append, leBytes_length, List.length_cons,
        List.length_nil]
      omega
    have htake8 : B.take 8 = leBytes 8 (path.length + 6) := by
      rw [hB, take_append_of_le (by simp [leBytes_length]),
        take_append_of_le (by simp [leBytes_length])]
      exact List.take_of_length_le (by simp [leBytes_length])
    have h63 : path.length + 6 < 2 ^ 63 := hsz
    have hget : B.getD 8 0 = 1 := by
      rw [hB, getD_append_left _ _ 8 0 (by simp [leBytes_length]),
        getD_append_right _ _ 8 0 (by simp [leBytes_length])]
      simp [leBytes_length]
    have hdrop9 : B.drop 9 = leBytes 4 perms ++ (path ++ 0 :: extra) := by
      rw [hB]
      exact List.drop_left' (by simp [leBytes_length])
    have htake4 : (leBytes 4 perms ++ (path ++ 0 :: extra)).take 4
        = leBytes 4 perms := by
      rw [take_append_of_le (by simp [leBytes_length])]
      exact List.take_of_length_le (by simp [leBytes_length])
    have hperms : leVal (leBytes 4 perms) = perms := by
      rw [leVal_leBytes]
      exact Nat.mod_eq_of_lt (lt_of_lt_of_eq hperm (by norm_num))
    have hdrop13 : B.drop 13 = path ++ 0 :: extra := by
      rw [hB, show (leBytes 8 (path.length + 6) ++ [1])
          ++ (leBytes 4 perms ++ (path ++ 0 :: extra))
          = ((leBytes 8 (path.length + 6) ++ [1]) ++ leBytes 4 perms)
            ++ (path ++ 0 :: extra) from by simp [List.append_assoc]]
      exact List.drop_left' (by simp [leBytes_length])
    have htakep : (path ++ 0 :: extra).take (path.length + 1)
        = path ++ [0] := by
      rw [show path ++ 0 :: extra = (path ++ [0]) ++ extra from by simp,
        take_append_of_le (by simp)]
      exact List.take_of_length_le (by simp)
    have htw : (path ++ [0]).takeWhile (fun b => b ≠ 0) = path :=
      takeWhile_append_nul path [] hnp
    have hslen : (serialize_item (Directory_item.dir path perms)).length
        = 8 + (path.length + 6) := by
      simp only [serialize_item, List.length_append, leBytes_length,
        List.length_cons, List.length_nil]
      omega
    rw [deserialize_item]
    dsimp only
    rw [htake8, leLong_leBytes _ h63, hlenB]
    rw [if_neg (by omega)]
    rw [if_neg (by push_cast; omega)]
    rw [hget]
    rw [if_pos one_ne_zero]
    simp only [Int.toNat_natCast]
    rw [hdrop9, htake4, hperms, hdrop13]
    rw [show path.length + 6 - 1 - 4 = path.length + 1 from by omega]
    rw [htakep, htw, hslen]
  | file path data =>
    rcases hv with ⟨hnp, hsz⟩
    have hS : 1 + (8 + (path.length + 1) + data.length)
        = path.length + data.length + 10 := by omega
    have hbuf : serialize_item (.file path data) ++ extra
        = (leBytes 8 (path.length + data.length + 10) ++ [0])
          ++ (leBytes 8 data.length ++ (path ++ 0 :: (data ++ extra))) := by
      simp [serialize_item, hS, List.append_assoc]
    rw [hbuf]
    set B : List Nat := (leBytes 8 (path.length + data.length + 10) ++ [0])
      ++ (leBytes 8 data.length ++ (path ++ 0 :: (data ++ extra))) with hB
    have hlenB : B.length
        = 18 + path.length + data.length + extra.length := by
      rw [hB]
      simp only [List.length_append, leBytes_length, List.length_cons,
        List.length_nil]
      omega
    have htake8 : B.take 8 = leBytes 8 (path.length + data.length + 10) := by
      rw [hB, take_append_of_le (by simp [leBytes_length]),
        take_append_of_le (by simp [leBytes_length])]
      exact List.take_of_length_le (by simp [leBytes_length])
    have h63 : path.length + data.length + 10 < 2 ^ 63 := by omega
    have hget : B.getD 8 0 = 0 := by
      rw [hB, getD_append_left _ _ 8 0 (by simp [leBytes_length]),
        getD_append_right _ _ 8 0 (by simp [leBytes_length])]
      simp [leBytes_length]
    have hdrop9 : B.drop 9
        = leBytes 8 data.length ++ (path ++ 0 :: (data ++ extra)) := by
      rw [hB]
      exact List.drop_left' (by simp [leBytes_length])
    have htake8b : (leBytes 8 data.length
        ++ (path ++ 0 :: (data ++ extra))).take 8 = leBytes 8 data.length := by
      rw [take_append_of_le (by simp [leBytes_length])]
      exact List.take_of_length_le (by simp [leBytes_length])
    have hfsz : leVal (leBytes 8 data.length) = data.length := by
      rw [leVal_leBytes]
      exact Nat.mod_eq_of_lt (by norm_num; omega)
    have hdrop17 : B.drop 17 = path ++ 0 :: (data ++ extra) := by
      rw [hB, show (leBytes 8 (path.length + data.length + 10) ++ [0])
          ++ (leBytes 8 data.length ++ (path ++ 0 :: (data ++ extra)))
          = ((leBytes 8 (path.length + data.length + 10) ++ [0])
              ++ leBytes 8 data.length) ++ (path ++ 0 :: (data ++ extra))
          from by simp [List.append_assoc]]
      exact List.drop_left' (by simp [leBytes_length])
    have htakep : (path ++ 0 :: (data ++ extra)).take (path.length + 1)
        = path ++ [0] := by
      rw [show path ++ 0 :: (data ++ extra) = (path ++ [0]) ++ (data ++ extra)
          from by simp, take_append_of_le (by simp)]
      exact List.take_of_length_le (by simp)
    have htw : (path ++ [0]).takeWhile (fun b => b ≠ 0) = path :=
      takeWhile_append_nul path [] hnp
    have hdropd : B.drop (17 + (path.length + 1)) = data ++ extra := by
      rw [hB, show (leBytes 8 (path.length + data.length + 10) ++ [0])
          ++ (leBytes 8 data.length ++ (path ++ 0 :: (data ++ extra)))
          = (((leBytes 8 (path.length + data.length + 10) ++ [0])
              ++ leBytes 8 data.length) ++ (path ++ [0]))
            ++ (data ++ extra) from by simp [List.append_assoc]]
      refine List.drop_left' ?_
      simp only [List.length_append, leBytes_length, List.length_cons,
        List.length_nil]
    have htaked : (data ++ extra).take data.length = data := by
      rw [take_append_of_le le_rfl]
      exact List.take_of_length_le le_rfl
    have hslen : (serialize_item (Directory_item.file path data)).length
        = 8 + (path.length + data.length + 10) := by
      simp only [serialize_item, List.length_append, leBytes_length,
        List.length_cons, List.length_nil]
      omega
    rw [deserialize_item]
    dsimp only
    rw [htake8, leLong_leBytes _ h63, hlenB]
    rw [if_neg (by omega)]
    rw [if_neg (by push_cast; omega)]
    rw [hget]
    rw [if_neg (fun h => h rfl)]
    simp only [Int.toNat_natCast]
    rw [hdrop9, htake8b, hfsz, hdrop17]
    rw [show path.length + data.length + 10 - 1 - 8 - data.length
        = path.length + 1 from by omega]
    rw [htakep, htw, hdropd, htaked, hslen]

/-- Concrete instance of the C8 roundtrip: a file item with path `A` and a
two-byte payload, followed by an unrelated trailing byte, deserializes back to
itself with the exact serialized length consumed. -/
theorem C8_serialize_roundtrip_witness :
    ItemValid (Directory_item.file [65] [7, 8]) ∧
    deserialize_item (serialize_item (Directory_item.file [65] [7, 8]) ++ [9])
      = DeserResult.ok (Directory_item.file [65] [7, 8])
        (serialize_item (Directory_item.file [65] [7, 8])).length :=
  ⟨⟨by decide, by norm_num⟩,
    C8_serialize_roundtrip (Directory_item.file [65] [7, 8]) [9]
      ⟨by decide, by norm_num⟩⟩

/-- C2: the claim fails on the program. `Compressed_file` declares
`tree_size` and `data_size` as `size_t`, so the source's sign checks on them
are dead, and the pointer bounds check `current + tree_size > end` wraps
modulo `2^64`: this 45-byte container with valid magic declares a tree
length of `2^64 - 16`, vastly beyond its end, yet the check passes (the
cursor wraps backward to offset 13, inside the header), the remaining fields
parse from the wrong place, and `read_compressed` answers success with the
absurd `tree_size` recorded — the declared length is not rejected as
malformed. -/
theorem C2_wrap_accepts_oversized_tree :
    wrapBuf.take 4 = magicBytes ∧
    wrapBuf.length = 45 ∧
    treeSizeOf wrapBuf = 2 ^ 64 - 16 ∧
    read_compressed wrapBuf
      = ReadResult.ok
          ⟨false, 0, [], 2 ^ 64 - 16, List.replicate 16 0, 0, []⟩ :=
  ⟨by decide, by decide, by decide, by decide⟩

end CZip
